import Mathlib

/-!
# Verification of the llts front-to-IR pipeline

A shallow embedding of the parts of the `llts` compiler that the audited
claims are about, together with theorems settling each claim:

* the TypeScript-annotation fragment consumed by the lowering code
  (`TSTy`), and the codegen type IR (`Codegen.LltsType`) with the union
  lowering of `llts_driver/src/pipeline/types.rs`;
* the analysis type IR (`Analysis.LltsType`), the type registry and its
  structural-equivalence test (`llts_analysis/src/types.rs`);
* the borrow checker (`llts_analysis/src/borrow.rs`);
* the ownership analyzer's parameter-usage scan
  (`llts_analysis/src/ownership.rs`);
* the monomorphizer (`llts_analysis/src/monomorph.rs`);
* the discriminated-union detection (`llts_driver/src/pipeline/unions.rs`);
* the module-graph resolver (`llts_driver/src/pipeline/compile.rs`).

Hash maps are modeled as association lists whose lookup returns the first
(most recently inserted) binding; the map-iteration order that the Rust
code observes is modeled as the list order.
-/

namespace Llts

/-! ## The TypeScript type-annotation AST

The fragment of the oxc `TSType` tree that the lowering and resolution
code distinguishes.  `otherTy` stands for every node kind that the code
sends to its wildcard arm, `litOther` for a `TSLiteralType` whose literal
is not a string literal. -/

inductive TSTy where
  | numberKw
  | booleanKw
  | stringKw
  | voidKw
  | neverKw
  | nullKw
  | undefinedKw
  | typeRef (name : String) (args : List TSTy)
  | arrayTy (elem : TSTy)
  | funcTy (params : List (Option TSTy)) (ret : TSTy)
  | unionTy (types : List TSTy)
  | parenTy (inner : TSTy)
  | litStr (value : String)
  | litOther
  | otherTy

namespace Codegen

/-! ## Codegen type IR (`llts_codegen/src/types.rs`, `enum LltsType`) -/

inductive LltsType where
  | i8 | i16 | i32 | i64
  | u8 | u16 | u32 | u64
  | f32 | f64
  | bool
  | void
  | never
  | string
  | struct (name : String) (fields : List (String × LltsType))
  | array (elem : LltsType)
  | option (inner : LltsType)
  | result (ok err : LltsType)
  | function (params : List LltsType) (ret : LltsType)
  | union (name : String) (variants : List (String × LltsType))
  | ptr

namespace TypeRegistry

/-- `TypeRegistry::is_signed`. -/
def is_signed : LltsType → Bool
  | .i8 | .i16 | .i32 | .i64 => true
  | _ => false

/-- `TypeRegistry::is_unsigned`. -/
def is_unsigned : LltsType → Bool
  | .u8 | .u16 | .u32 | .u64 => true
  | _ => false

/-- `TypeRegistry::is_integer`. -/
def is_integer (ty : LltsType) : Bool :=
  is_signed ty || is_unsigned ty

/-- `TypeRegistry::is_float`. -/
def is_float : LltsType → Bool
  | .f32 | .f64 => true
  | _ => false

/-- `TypeRegistry::is_numeric`. -/
def is_numeric (ty : LltsType) : Bool :=
  is_integer ty || is_float ty

/-- `TypeRegistry::bit_width`. -/
def bit_width : LltsType → Nat
  | .i8 | .u8 | .bool => 8
  | .i16 | .u16 => 16
  | .i32 | .u32 | .f32 => 32
  | .i64 | .u64 | .f64 => 64
  | _ => 0

end TypeRegistry

end Codegen

namespace Pipeline

open Codegen

/-- The `TSType::TSNullKeyword(_) | TSType::TSUndefinedKeyword(_)` pattern of
the union-lowering loop. -/
def isNullish : TSTy → Bool
  | .nullKw | .undefinedKw => true
  | _ => false

/-- Iterator `.max()`: greatest element of a list of numbers, `none` when empty. -/
def listMax? : List Nat → Option Nat
  | [] => none
  | x :: xs =>
    some (match listMax? xs with
          | none => x
          | some m => Nat.max x m)

/-- The numeric-union collapse of `lower_ts_type_with_enums`
(`pipeline/types.rs` lines 139-182): all non-null variants are numeric, so
widen to the largest type (float beats int, signed beats unsigned). -/
def collapse_numeric_union (ts : List LltsType) : LltsType :=
  let has_float := ts.any TypeRegistry.is_float
  if has_float then
    let max_float_width :=
      (listMax? ((ts.filter TypeRegistry.is_float).map TypeRegistry.bit_width)).getD 64
    let max_int_width :=
      (listMax? ((ts.filter TypeRegistry.is_integer).map TypeRegistry.bit_width)).getD 0
    let needed := Nat.max max_float_width max_int_width
    if needed ≤ 32 then .f32 else .f64
  else
    let has_signed := ts.any TypeRegistry.is_signed
    let max_width := (listMax? (ts.map TypeRegistry.bit_width)).getD 32
    if has_signed then
      if max_width ≤ 8 then .i8
      else if max_width ≤ 16 then .i16
      else if max_width ≤ 32 then .i32
      else .i64
    else
      if max_width ≤ 8 then .u8
      else if max_width ≤ 16 then .u16
      else if max_width ≤ 32 then .u32
      else .u64

/-- The string-literal values of the union members
(`filter_map` over `union.types` keeping `TSLiteralType(StringLiteral)`). -/
def string_lits (types : List TSTy) : List String :=
  types.filterMap fun t =>
    match t with
    | .litStr s => some s
    | _ => none

mutual

/-- `lower_ts_type_with_enums` (`pipeline/types.rs` lines 26-197): lower a TS
type annotation to a codegen `LltsType`, recognizing known enum names as
`I32`. -/
def lower_ts_type_with_enums (enum_names : List String) : TSTy → LltsType
  | .numberKw => .f64
  | .booleanKw => .bool
  | .stringKw => .string
  | .voidKw => .void
  | .neverKw => .never
  | .nullKw => .void
  | .undefinedKw => .void
  | .typeRef name args =>
    if name = "i8" then .i8
    else if name = "i16" then .i16
    else if name = "i32" then .i32
    else if name = "i64" then .i64
    else if name = "u8" then .u8
    else if name = "u16" then .u16
    else if name = "u32" then .u32
    else if name = "u64" then .u64
    else if name = "f32" then .f32
    else if name = "f64" then .f64
    else if name = "Array" then
      .array (match args with
              | [] => .f64
              | a :: _ => lower_ts_type_with_enums enum_names a)
    else if name = "Option" then
      .option (match args with
               | [] => .f64
               | a :: _ => lower_ts_type_with_enums enum_names a)
    else if name = "Result" then
      match args with
      | [] => .result .void .void
      | [a] => .result (lower_ts_type_with_enums enum_names a) .void
      | a :: b :: _ =>
        .result (lower_ts_type_with_enums enum_names a)
                (lower_ts_type_with_enums enum_names b)
    else if enum_names.contains name then .i32
    else .struct name []
  | .arrayTy elem => .array (lower_ts_type_with_enums enum_names elem)
  | .funcTy params ret =>
    .function (lower_param_tys enum_names params)
              (lower_ts_type_with_enums enum_names ret)
  | .unionTy types =>
    let lits := string_lits types
    if lits.length = types.length ∧ ¬ lits.isEmpty then
      -- All variants are string literals: emit I32 (enum-like tag).
      .i32
    else
      match lower_union_members enum_names types with
      | ([t], true) => .option t
      | ([t], false) => t
      | (ts, _) =>
        if ¬ ts.isEmpty ∧ ts.all TypeRegistry.is_numeric then
          collapse_numeric_union ts
        else
          .union "" (ts.enum.map fun (i, ty) => ("v" ++ toString i, ty))
  | .parenTy inner => lower_ts_type_with_enums enum_names inner
  | .litStr _ => .f64
  | .litOther => .f64
  | .otherTy => .f64

/-- The member loop of the union arm: lower the non-null members in order and
record whether a `null`/`undefined` member was seen. -/
def lower_union_members (enum_names : List String) :
    List TSTy → (List LltsType × Bool)
  | [] => ([], false)
  | t :: rest =>
    let s := lower_union_members enum_names rest
    if isNullish t then (s.1, true)
    else (lower_ts_type_with_enums enum_names t :: s.1, s.2)

/-- Lower the parameter annotations of a function type (`unwrap_or(F64)` for a
missing annotation). -/
def lower_param_tys (enum_names : List String) :
    List (Option TSTy) → List LltsType
  | [] => []
  | none :: rest => .f64 :: lower_param_tys enum_names rest
  | some t :: rest =>
    lower_ts_type_with_enums enum_names t :: lower_param_tys enum_names rest

end

end Pipeline

namespace Analysis

/-! ## Analysis type IR (`llts_analysis/src/types.rs`, `enum LltsType`)

`StructField` is modeled as `(name, ty, readonly, optional)`, `UnionVariant`
as `(tag, ty)`, `EnumVariant` as `(name, tag, value)` and `FunctionParam` as
`(name, ty)`. -/

inductive EnumValue where
  | numeric (v : Int)
  | str (s : String)
  deriving DecidableEq, Repr

inductive LltsType where
  | number
  | i8 | i16 | i32 | i64
  | u8 | u16 | u32 | u64
  | f32 | f64
  | boolean
  | string
  | void
  | never
  | struct (name : String) (fields : List (String × LltsType × Bool × Bool))
      (type_params : List String)
  | array (elem : LltsType)
  | tuple (elems : List LltsType)
  | union (name : Option String) (variants : List (Int × LltsType))
  | enum (name : String) (variants : List (String × Int × EnumValue))
      (is_const : Bool)
  | option (inner : LltsType)
  | result (ok err : LltsType)
  | function (params : List (String × LltsType)) (return_type : LltsType)
      (type_params : List String)
  | generic (name : String) (type_params : List String) (base : LltsType)
  | readonly (inner : LltsType)
  | weak (inner : LltsType)
  | alias (name : String) (inner : LltsType)
  | ref (id : Nat)
  | unknown

mutual

/-- The derived `PartialEq` of the Rust `LltsType` (full structural equality
of the representation, used by the `a == b` fallback arm of
`structurally_equal`).  The Rust pair-match is written as one arm per left
constructor, each testing the right side, which is the same function. -/
def beqType : LltsType → LltsType → Bool
  | .number, b => match b with | .number => true | _ => false
  | .i8, b => match b with | .i8 => true | _ => false
  | .i16, b => match b with | .i16 => true | _ => false
  | .i32, b => match b with | .i32 => true | _ => false
  | .i64, b => match b with | .i64 => true | _ => false
  | .u8, b => match b with | .u8 => true | _ => false
  | .u16, b => match b with | .u16 => true | _ => false
  | .u32, b => match b with | .u32 => true | _ => false
  | .u64, b => match b with | .u64 => true | _ => false
  | .f32, b => match b with | .f32 => true | _ => false
  | .f64, b => match b with | .f64 => true | _ => false
  | .boolean, b => match b with | .boolean => true | _ => false
  | .string, b => match b with | .string => true | _ => false
  | .void, b => match b with | .void => true | _ => false
  | .never, b => match b with | .never => true | _ => false
  | .struct n1 f1 p1, b =>
    match b with
    | .struct n2 f2 p2 => n1 = n2 && beqFields f1 f2 && decide (p1 = p2)
    | _ => false
  | .array a, b =>
    match b with | .array b' => beqType a b' | _ => false
  | .tuple a, b =>
    match b with | .tuple b' => beqTypes a b' | _ => false
  | .union n1 v1, b =>
    match b with
    | .union n2 v2 => decide (n1 = n2) && beqVariants v1 v2
    | _ => false
  | .enum n1 v1 c1, b =>
    match b with
    | .enum n2 v2 c2 => n1 = n2 && decide (v1 = v2) && (c1 = c2)
    | _ => false
  | .option a, b =>
    match b with | .option b' => beqType a b' | _ => false
  | .result o1 e1, b =>
    match b with
    | .result o2 e2 => beqType o1 o2 && beqType e1 e2
    | _ => false
  | .function p1 r1 t1, b =>
    match b with
    | .function p2 r2 t2 => beqParams p1 p2 && beqType r1 r2 && decide (t1 = t2)
    | _ => false
  | .generic n1 t1 b1, b =>
    match b with
    | .generic n2 t2 b2 => n1 = n2 && decide (t1 = t2) && beqType b1 b2
    | _ => false
  | .readonly a, b =>
    match b with | .readonly b' => beqType a b' | _ => false
  | .weak a, b =>
    match b with | .weak b' => beqType a b' | _ => false
  | .alias n1 i1, b =>
    match b with | .alias n2 i2 => n1 = n2 && beqType i1 i2 | _ => false
  | .ref a, b => match b with | .ref b' => a = b' | _ => false
  | .unknown, b => match b with | .unknown => true | _ => false

def beqFields :
    List (String × LltsType × Bool × Bool) →
    List (String × LltsType × Bool × Bool) → Bool
  | [], [] => true
  | (n1, t1, r1, o1) :: xs, (n2, t2, r2, o2) :: ys =>
    n1 = n2 && beqType t1 t2 && (r1 = r2) && (o1 = o2) && beqFields xs ys
  | _, _ => false

def beqTypes : List LltsType → List LltsType → Bool
  | [], [] => true
  | x :: xs, y :: ys => beqType x y && beqTypes xs ys
  | _, _ => false

def beqVariants : List (Int × LltsType) → List (Int × LltsType) → Bool
  | [], [] => true
  | (t1, x) :: xs, (t2, y) :: ys => t1 = t2 && beqType x y && beqVariants xs ys
  | _, _ => false

def beqParams :
    List (String × LltsType) → List (String × LltsType) → Bool
  | [], [] => true
  | (n1, x) :: xs, (n2, y) :: ys => n1 = n2 && beqType x y && beqParams xs ys
  | _, _ => false

end

/-- `LltsType::is_primitive`. -/
def LltsType.is_primitive : LltsType → Bool
  | .number | .i8 | .i16 | .i32 | .i64
  | .u8 | .u16 | .u32 | .u64
  | .f32 | .f64 | .boolean | .void | .never => true
  | _ => false

/-- `LltsType::is_copy` (all primitives are Copy). -/
def LltsType.is_copy (ty : LltsType) : Bool :=
  ty.is_primitive

/-- `LltsType.is_small_struct`. -/
def LltsType.is_small_struct : LltsType → Bool
  | .struct _ fields _ =>
    fields.length ≤ 4 && fields.all fun f => f.2.1.is_primitive
  | .tuple elems => elems.length ≤ 4 && elems.all LltsType.is_primitive
  | _ => false

/-! ## Type registry (`llts_analysis/src/types.rs`, `struct TypeRegistry`) -/

structure TypeRegistry where
  /-- Named type store: name -> (TypeId, LltsType). -/
  types : List (String × Nat × LltsType)
  /-- Reverse lookup: TypeId -> name. -/
  id_to_name : List (Nat × String)
  next_id : Nat

def TypeRegistry.new : TypeRegistry := ⟨[], [], 0⟩

/-- `TypeRegistry::register`: register a named type, returning its TypeId.
An existing name keeps its entry and the call returns the existing id. -/
def TypeRegistry.register (reg : TypeRegistry) (name : String)
    (ty : LltsType) : Nat × TypeRegistry :=
  match reg.types.lookup name with
  | some (id, _) => (id, reg)
  | none =>
    let id := reg.next_id
    (id,
     { types := (name, id, ty) :: reg.types,
       id_to_name := (id, name) :: reg.id_to_name,
       next_id := reg.next_id + 1 })

/-- In-place replacement of the (unique) binding of `name`, as
`HashMap::get_mut` does. -/
def updateFirst (name : String) (ty : LltsType) :
    List (String × Nat × LltsType) → List (String × Nat × LltsType)
  | [] => []
  | e :: rest =>
    if e.1 = name then (e.1, e.2.1, ty) :: rest
    else e :: updateFirst name ty rest

/-- `TypeRegistry::update`. -/
def TypeRegistry.update (reg : TypeRegistry) (name : String)
    (ty : LltsType) : TypeRegistry :=
  { reg with types := updateFirst name ty reg.types }

/-- `TypeRegistry::get`. -/
def TypeRegistry.get (reg : TypeRegistry) (name : String) : Option LltsType :=
  (reg.types.lookup name).map (·.2)

/-- `TypeRegistry::get_by_id`. -/
def TypeRegistry.get_by_id (reg : TypeRegistry) (id : Nat) : Option LltsType :=
  (reg.id_to_name.lookup id).bind fun name =>
    (reg.types.lookup name).map (·.2)

/-- `TypeRegistry::id_of`. -/
def TypeRegistry.id_of (reg : TypeRegistry) (name : String) : Option Nat :=
  (reg.types.lookup name).map (·.1)

/-- `TypeRegistry::structurally_equal`, made total with a fuel parameter:
the Rust recursion has no bound, so every recursive call here spends one
unit of fuel and exhausted fuel answers `false`; `StructEquiv` below
quantifies the fuel away.  The Rust or-patterns are expanded per left
constructor, preserving the arm priority: `(Ref, Ref)` with equal ids,
then resolving a `Ref` on either side, then looking through an `Alias` on
either side, then the structural pairs, then `a == b`. -/
def structurally_equal (reg : TypeRegistry) :
    Nat → LltsType → LltsType → Bool
  | 0, _, _ => false
  | fuel + 1, .ref ia, b =>
    (match b with
     | .ref ib =>
       if ia = ib then true
       else
         match reg.get_by_id ia with
         | some r => structurally_equal reg fuel r (.ref ib)
         | none => false
     | other =>
       match reg.get_by_id ia with
       | some r => structurally_equal reg fuel r other
       | none => false)
  | fuel + 1, .alias na ia, b =>
    (match b with
     | .ref ib =>
       match reg.get_by_id ib with
       | some r => structurally_equal reg fuel r (.alias na ia)
       | none => false
     | other => structurally_equal reg fuel ia other)
  | fuel + 1, .struct na fa pa, b =>
    (match b with
     | .ref ib =>
       match reg.get_by_id ib with
       | some r => structurally_equal reg fuel r (.struct na fa pa)
       | none => false
     | .alias _ ib => structurally_equal reg fuel ib (.struct na fa pa)
     | .struct _ fb _ =>
       fa.length = fb.length &&
         (fa.zip fb).all fun p =>
           p.1.1 = p.2.1 && structurally_equal reg fuel p.1.2.1 p.2.2.1
     | other => beqType (.struct na fa pa) other)
  | fuel + 1, .array a', b =>
    (match b with
     | .ref ib =>
       match reg.get_by_id ib with
       | some r => structurally_equal reg fuel r (.array a')
       | none => false
     | .alias _ ib => structurally_equal reg fuel ib (.array a')
     | .array b' => structurally_equal reg fuel a' b'
     | other => beqType (.array a') other)
  | fuel + 1, .tuple as', b =>
    (match b with
     | .ref ib =>
       match reg.get_by_id ib with
       | some r => structurally_equal reg fuel r (.tuple as')
       | none => false
     | .alias _ ib => structurally_equal reg fuel ib (.tuple as')
     | .tuple bs' =>
       as'.length = bs'.length &&
         (as'.zip bs').all fun p => structurally_equal reg fuel p.1 p.2
     | other => beqType (.tuple as') other)
  | fuel + 1, .function pa ra ta, b =>
    (match b with
     | .ref ib =>
       match reg.get_by_id ib with
       | some r => structurally_equal reg fuel r (.function pa ra ta)
       | none => false
     | .alias _ ib => structurally_equal reg fuel ib (.function pa ra ta)
     | .function pb rb _ =>
       pa.length = pb.length &&
         ((pa.zip pb).all fun p =>
           structurally_equal reg fuel p.1.2 p.2.2) &&
         structurally_equal reg fuel ra rb
     | other => beqType (.function pa ra ta) other)
  | fuel + 1, .option a', b =>
    (match b with
     | .ref ib =>
       match reg.get_by_id ib with
       | some r => structurally_equal reg fuel r (.option a')
       | none => false
     | .alias _ ib => structurally_equal reg fuel ib (.option a')
     | .option b' => structurally_equal reg fuel a' b'
     | other => beqType (.option a') other)
  | fuel + 1, .result oa ea, b =>
    (match b with
     | .ref ib =>
       match reg.get_by_id ib with
       | some r => structurally_equal reg fuel r (.result oa ea)
       | none => false
     | .alias _ ib => structurally_equal reg fuel ib (.result oa ea)
     | .result ob eb =>
       structurally_equal reg fuel oa ob && structurally_equal reg fuel ea eb
     | other => beqType (.result oa ea) other)
  | fuel + 1, .readonly a', b =>
    (match b with
     | .ref ib =>
       match reg.get_by_id ib with
       | some r => structurally_equal reg fuel r (.readonly a')
       | none => false
     | .alias _ ib => structurally_equal reg fuel ib (.readonly a')
     | .readonly b' => structurally_equal reg fuel a' b'
     | other => beqType (.readonly a') other)
  | fuel + 1, .weak a', b =>
    (match b with
     | .ref ib =>
       match reg.get_by_id ib with
       | some r => structurally_equal reg fuel r (.weak a')
       | none => false
     | .alias _ ib => structurally_equal reg fuel ib (.weak a')
     | .weak b' => structurally_equal reg fuel a' b'
     | other => beqType (.weak a') other)
  | fuel + 1, a, b =>
    (match b with
     | .ref ib =>
       match reg.get_by_id ib with
       | some r => structurally_equal reg fuel r a
       | none => false
     | .alias _ ib => structurally_equal reg fuel ib a
     | other => beqType a other)

/-- Structural equivalence: `structurally_equal` holds for some fuel.
Because extra fuel never flips a `true` result to `false` is not needed
here; a single sufficient fuel witnesses the Rust result. -/
def StructEquiv (reg : TypeRegistry) (a b : LltsType) : Prop :=
  ∃ fuel, structurally_equal reg fuel a b = true

end Analysis

/-! ## Expression and statement AST

The fragment of the oxc AST distinguished by the analysis passes.  Spans
are modeled as numbers.  `otherExpr` / `otherStmt` / `otherPat` /
`targetOther` stand for every node kind the analysis sends to a wildcard
arm.  `typeRef` in `TSTy` models identifier type references (the code
returns `Unknown` for qualified names before ever using them). -/

mutual

inductive Expr where
  | ident (name : String) (span : Nat)
  | assign (left : ATarget) (right : Expr) (span : Nat)
  | call (callee : Expr) (args : List Arg) (span : Nat)
  | staticMember (object : Expr) (prop : String) (span : Nat)
  | computedMember (object : Expr) (span : Nat)
  | binary (left right : Expr)
  | unary (argument : Expr)
  | paren (inner : Expr)
  | numLit (value : Int) (span : Nat)
  | strLit (value : String) (span : Nat)
  | otherExpr

inductive ATarget where
  | targetIdent (name : String)
  | targetStaticMember (object : Expr) (prop : String)
  | targetComputedMember (object : Expr)
  | targetOther

inductive Arg where
  | spread (e : Expr)
  | plain (e : Expr)

end

inductive BindingPat where
  | bindingIdent (name : String)
  | otherPat

structure Declarator where
  id : BindingPat
  tyAnn : Option TSTy
  init : Option Expr
  span : Nat

inductive Stmt where
  | varDecl (declarations : List Declarator)
  | exprStmt (e : Expr)
  | ret (argument : Option Expr)
  | block (body : List Stmt)
  | ifStmt (test : Expr) (consequent : Stmt) (alternate : Option Stmt)
  | otherStmt

structure Param where
  pattern : BindingPat
  tyAnn : Option TSTy
  span : Nat

/-- An oxc `Function`: the fields the analysis passes read. -/
structure FunctionAst where
  id : Option String
  params : List Param
  body : Option (List Stmt)

/-- `binding_pattern_name` (identical private helper in `borrow.rs`,
`ownership.rs` and `lib.rs`). -/
def binding_pattern_name : BindingPat → String
  | .bindingIdent name => name
  | .otherPat => "_"

/-- `is_mutating_method` (identical private helper in `borrow.rs` and
`ownership.rs`). -/
def is_mutating_method (method : String) : Bool :=
  method = "push" || method = "pop" || method = "shift" ||
  method = "unshift" || method = "splice" || method = "sort" ||
  method = "reverse" || method = "fill" || method = "copyWithin" ||
  method = "set" || method = "delete" || method = "clear"

namespace Analysis

/-- `resolve_type_simple` (`llts_analysis/src/lib.rs`): resolve a type
annotation against an immutable registry; primitives and bare named
lookups only, type arguments are ignored. -/
def resolve_type_simple (reg : TypeRegistry) : TSTy → LltsType
  | .numberKw => .number
  | .booleanKw => .boolean
  | .stringKw => .string
  | .voidKw => .void
  | .neverKw => .never
  | .nullKw => .void
  | .undefinedKw => .void
  | .typeRef name _ =>
    if name = "i8" then .i8
    else if name = "i16" then .i16
    else if name = "i32" then .i32
    else if name = "i64" then .i64
    else if name = "u8" then .u8
    else if name = "u16" then .u16
    else if name = "u32" then .u32
    else if name = "u64" then .u64
    else if name = "f32" then .f32
    else if name = "f64" then .f64
    else (reg.get name).getD .unknown
  | .arrayTy elem => .array (resolve_type_simple reg elem)
  | _ => .unknown

end Analysis

namespace Borrow

open Analysis

/-! ## Borrow checker (`llts_analysis/src/borrow.rs`) -/

inductive BorrowState where
  | unborrowed
  | immutableBorrow (count : Nat)
  | mutableBorrow
  | moved
  deriving DecidableEq, Repr

inductive BorrowErrorKind where
  | mutableBorrowWhileImmutablelyBorrowed (name : String)
  | immutableBorrowWhileMutablyBorrowed (name : String)
  | doubleMutableBorrow (name : String)
  | mutateReadonly (name : String)
  | useAfterMove (name : String)
  deriving DecidableEq, Repr

structure BorrowError where
  span : Nat
  kind : BorrowErrorKind
  deriving DecidableEq, Repr

structure BorrowChecker where
  /-- Variable -> borrow state. -/
  states : List (String × BorrowState)
  /-- Variable -> whether the type is Readonly<T>. -/
  readonlyFlags : List (String × Bool)
  /-- Variable -> whether the type is Copy. -/
  copy_types : List (String × Bool)
  errors : List BorrowError
  deriving Repr

def BorrowChecker.new : BorrowChecker := ⟨[], [], [], []⟩

/-- `BorrowChecker::declare`. -/
def BorrowChecker.declare (bc : BorrowChecker) (name : String)
    (ty : LltsType) : BorrowChecker :=
  let is_readonly := match ty with | .readonly _ => true | _ => false
  { bc with
    states := (name, BorrowState.unborrowed) :: bc.states,
    readonlyFlags := (name, is_readonly) :: bc.readonlyFlags,
    copy_types := (name, ty.is_copy) :: bc.copy_types }

/-- `BorrowChecker::borrow_immutable`. -/
def BorrowChecker.borrow_immutable (bc : BorrowChecker) (name : String)
    (span : Nat) : BorrowChecker :=
  match bc.states.lookup name with
  | some .moved =>
    { bc with errors := bc.errors ++ [⟨span, .useAfterMove name⟩] }
  | some .mutableBorrow =>
    { bc with
      errors := bc.errors ++ [⟨span, .immutableBorrowWhileMutablyBorrowed name⟩] }
  | some (.immutableBorrow count) =>
    { bc with states := (name, BorrowState.immutableBorrow (count + 1)) :: bc.states }
  | some .unborrowed =>
    { bc with states := (name, BorrowState.immutableBorrow 1) :: bc.states }
  | none => bc

/-- `BorrowChecker::borrow_mutable`: the Readonly check precedes the state
transition and short-circuits it. -/
def BorrowChecker.borrow_mutable (bc : BorrowChecker) (name : String)
    (span : Nat) : BorrowChecker :=
  if (bc.readonlyFlags.lookup name).getD false then
    { bc with errors := bc.errors ++ [⟨span, .mutateReadonly name⟩] }
  else
    match bc.states.lookup name with
    | some .moved =>
      { bc with errors := bc.errors ++ [⟨span, .useAfterMove name⟩] }
    | some .mutableBorrow =>
      { bc with errors := bc.errors ++ [⟨span, .doubleMutableBorrow name⟩] }
    | some (.immutableBorrow _) =>
      { bc with
        errors := bc.errors ++ [⟨span, .mutableBorrowWhileImmutablelyBorrowed name⟩] }
    | some .unborrowed =>
      { bc with states := (name, BorrowState.mutableBorrow) :: bc.states }
    | none => bc

/-- `BorrowChecker::release_borrow`. -/
def BorrowChecker.release_borrow (bc : BorrowChecker) (name : String) :
    BorrowChecker :=
  match bc.states.lookup name with
  | some (.immutableBorrow count) =>
    if count > 1 then
      { bc with states := (name, BorrowState.immutableBorrow (count - 1)) :: bc.states }
    else
      { bc with states := (name, BorrowState.unborrowed) :: bc.states }
  | some .mutableBorrow =>
    { bc with states := (name, BorrowState.unborrowed) :: bc.states }
  | _ => bc

/-- `BorrowChecker::mark_moved`: Copy types are never moved; a second move
of a moved variable is a use-after-move error. -/
def BorrowChecker.mark_moved (bc : BorrowChecker) (name : String)
    (span : Nat) : BorrowChecker :=
  if (bc.copy_types.lookup name).getD false then bc
  else
    match bc.states.lookup name with
    | some st =>
      if st = BorrowState.moved then
        { bc with errors := bc.errors ++ [⟨span, .useAfterMove name⟩] }
      else { bc with states := (name, BorrowState.moved) :: bc.states }
    | none => { bc with states := (name, BorrowState.moved) :: bc.states }

/-- `BorrowChecker::check_use`. -/
def BorrowChecker.check_use (bc : BorrowChecker) (name : String)
    (span : Nat) : BorrowChecker :=
  match bc.states.lookup name with
  | some .moved =>
    { bc with errors := bc.errors ++ [⟨span, .useAfterMove name⟩] }
  | _ => bc

/-- `BorrowChecker::check_mutation`. -/
def BorrowChecker.check_mutation (bc : BorrowChecker) (name : String)
    (span : Nat) : BorrowChecker :=
  if (bc.readonlyFlags.lookup name).getD false then
    { bc with errors := bc.errors ++ [⟨span, .mutateReadonly name⟩] }
  else bc

/-- `assignment_target_name` (`borrow.rs`). -/
def assignment_target_name : ATarget → Option String
  | .targetIdent name => some name
  | .targetStaticMember (.ident name _) _ => some name
  | .targetStaticMember _ _ => none
  | _ => none

mutual

/-- `BorrowChecker::check_expression`. -/
def BorrowChecker.check_expression (bc : BorrowChecker) :
    Expr → BorrowChecker
  | .ident name span => bc.check_use name span
  | .assign left right span =>
    let bc1 :=
      match assignment_target_name left with
      | some name => bc.check_mutation name span
      | none => bc
    bc1.check_expression right
  | .call callee args span =>
    let bc1 :=
      match callee with
      | .staticMember obj method _ =>
        if is_mutating_method method then
          match obj with
          | .ident iname _ =>
            (bc.check_mutation iname span).borrow_mutable iname span
          | _ => bc
        else
          match obj with
          | .ident iname _ => bc.borrow_immutable iname span
          | _ => bc
      | _ => bc
    BorrowChecker.check_arguments bc1 args
  | .staticMember obj _ _ => bc.check_expression obj
  | .binary left right => (bc.check_expression left).check_expression right
  | .unary argument => bc.check_expression argument
  | _ => bc

/-- The argument loop of `check_expression`'s call arm. -/
def BorrowChecker.check_arguments (bc : BorrowChecker) :
    List Arg → BorrowChecker
  | [] => bc
  | .spread e :: rest =>
    BorrowChecker.check_arguments (bc.check_expression e) rest
  | .plain e :: rest =>
    BorrowChecker.check_arguments (bc.check_expression e) rest

end

mutual

/-- `BorrowChecker::check_statement`. -/
def BorrowChecker.check_statement (rt : TSTy → LltsType)
    (bc : BorrowChecker) : Stmt → BorrowChecker
  | .varDecl declarations =>
    BorrowChecker.check_declarators rt bc declarations
  | .exprStmt e => bc.check_expression e
  | .ret (some (.ident name span)) => bc.mark_moved name span
  | .ret (some arg) => bc.check_expression arg
  | .ret none => bc
  | .block body => BorrowChecker.check_statements rt bc body
  | .ifStmt test consequent alternate =>
    let bc1 := bc.check_expression test
    let bc2 := BorrowChecker.check_statement rt bc1 consequent
    match alternate with
    | some alt => BorrowChecker.check_statement rt bc2 alt
    | none => bc2
  | .otherStmt => bc

/-- The declarator loop of `check_statement`'s variable-declaration arm. -/
def BorrowChecker.check_declarators (rt : TSTy → LltsType)
    (bc : BorrowChecker) : List Declarator → BorrowChecker
  | [] => bc
  | d :: rest =>
    let name := binding_pattern_name d.id
    let ty := (d.tyAnn.map rt).getD .unknown
    let bc1 := bc.declare name ty
    let bc2 :=
      match d.init with
      | some e => bc1.check_expression e
      | none => bc1
    BorrowChecker.check_declarators rt bc2 rest

/-- The statement loop of `check_statement`'s block arm (also used by
`check_function` for the body). -/
def BorrowChecker.check_statements (rt : TSTy → LltsType)
    (bc : BorrowChecker) : List Stmt → BorrowChecker
  | [] => bc
  | s :: rest =>
    BorrowChecker.check_statements rt (BorrowChecker.check_statement rt bc s) rest

end

/-- `BorrowChecker::check_function`: declare the parameters, then walk the
body. -/
def BorrowChecker.check_function (rt : TSTy → LltsType)
    (bc : BorrowChecker) (func : FunctionAst) : BorrowChecker :=
  let bc1 := func.params.foldl
    (fun acc param =>
      let name := binding_pattern_name param.pattern
      let ty := (param.tyAnn.map rt).getD LltsType.unknown
      acc.declare name ty)
    bc
  match func.body with
  | some body => BorrowChecker.check_statements rt bc1 body
  | none => bc1

end Borrow

namespace Ownership

open Analysis

/-! ## Ownership analyzer (`llts_analysis/src/ownership.rs`): the
parameter-usage scan and parameter classification. -/

inductive Usage where
  | read
  | mutate
  | escape
  deriving DecidableEq, Repr

inductive ParamOwnership where
  | borrow
  | mutableBorrow
  | owned
  deriving DecidableEq, Repr

/-- `max_usage`. -/
def max_usage : Usage → Usage → Usage
  | .escape, _ => .escape
  | _, .escape => .escape
  | .mutate, _ => .mutate
  | _, .mutate => .mutate
  | _, _ => .read

/-- `expr_references_name`. -/
def expr_references_name (name : String) : Expr → Bool
  | .ident n _ => n = name
  | .staticMember obj _ _ => expr_references_name name obj
  | .computedMember obj _ => expr_references_name name obj
  | .paren inner => expr_references_name name inner
  | _ => false

/-- `assignment_target_references_name`. -/
def assignment_target_references_name (name : String) : ATarget → Bool
  | .targetStaticMember obj _ => expr_references_name name obj
  | .targetComputedMember obj => expr_references_name name obj
  | _ => false

/-- The Rust `Argument` as an expression (`to_expression` for plain
arguments, `spread.argument` for spreads), used by the escape scan. -/
def argExpr : Arg → Expr
  | .spread e => e
  | .plain e => e

/-- `OwnershipAnalyzer::scan_expression_for_usage`. -/
def scan_expression_for_usage (name : String) : Expr → Usage
  | .call callee args _ =>
    let mutated :=
      match callee with
      | .staticMember obj method _ =>
        expr_references_name name obj && is_mutating_method method
      | _ => false
    if mutated then .mutate
    else if args.any fun a => expr_references_name name (argExpr a) then
      .escape
    else .read
  | .assign left right _ =>
    if assignment_target_references_name name left then .mutate
    else if expr_references_name name right then .escape
    else .read
  | _ => .read

mutual

/-- `OwnershipAnalyzer::scan_statement_for_usage`. -/
def scan_statement_for_usage (name : String) : Stmt → Usage
  | .exprStmt e => scan_expression_for_usage name e
  | .ret (some arg) =>
    let usage := scan_expression_for_usage name arg
    if usage ≠ Usage.read then usage
    else if expr_references_name name arg then .escape
    else .read
  | .ret none => .read
  | .block body => scan_statements name .read body
  | .ifStmt _ consequent alternate =>
    let u := scan_statement_for_usage name consequent
    match alternate with
    | some alt => max_usage u (scan_statement_for_usage name alt)
    | none => u
  | _ => .read

/-- The `usage = max_usage(usage, ...)` loop over a statement list, shared
by the block arm and by `scan_param_usage`. -/
def scan_statements (name : String) (usage : Usage) : List Stmt → Usage
  | [] => usage
  | s :: rest =>
    scan_statements name (max_usage usage (scan_statement_for_usage name s)) rest

end

/-- `OwnershipAnalyzer::scan_param_usage`. -/
def scan_param_usage (name : String) (body : Option (List Stmt)) : Usage :=
  match body with
  | none => .read
  | some stmts => scan_statements name .read stmts

/-- `OwnershipAnalyzer::infer_param_ownership`.  The Rust escape arm
branches on primitives but returns `Owned` on both branches; the branch is
kept. -/
def infer_param_ownership (ty : LltsType) (usage : Usage) : ParamOwnership :=
  match usage with
  | .read => .borrow
  | .mutate => .mutableBorrow
  | .escape =>
    if ty.is_primitive || ty.is_small_struct then .owned else .owned

end Ownership

namespace Monomorph

open Analysis

/-! ## Monomorphizer (`llts_analysis/src/monomorph.rs`) -/

/-- The analysis `FunctionType` as stored in `generic_functions`. -/
structure FunctionTy where
  params : List (String × LltsType)
  return_type : LltsType
  type_params : List String

structure MonomorphInstance where
  original_name : String
  mangled_name : String
  type_args : List LltsType
  specialized : LltsType

structure Monomorphizer where
  /-- All monomorphized instances, keyed by mangled name. -/
  instances : List (String × MonomorphInstance)
  /-- Generic function definitions: name -> (type_params, function type). -/
  generic_functions : List (String × List String × FunctionTy)
  /-- Generic type definitions: name -> (type_params, base type). -/
  generic_types : List (String × List String × LltsType)

def Monomorphizer.new : Monomorphizer := ⟨[], [], []⟩

/-- `Monomorphizer::register_generic_function`. -/
def Monomorphizer.register_generic_function (m : Monomorphizer)
    (name : String) (type_params : List String) (func_type : FunctionTy) :
    Monomorphizer :=
  { m with generic_functions := (name, type_params, func_type) :: m.generic_functions }

mutual

/-- `substitute_type`: replace `Alias` nodes whose name is in the
substitution map with the concrete type; the substitution map built from
`type_params.zip(type_args)` is modeled as the zipped association list. -/
def substitute_type (subs : List (String × LltsType)) :
    LltsType → LltsType
  | .alias name inner =>
    match subs.lookup name with
    | some concrete => concrete
    | none => .alias name inner
  | .array elem => .array (substitute_type subs elem)
  | .tuple elems => .tuple (substitute_types subs elems)
  | .option inner => .option (substitute_type subs inner)
  | .result ok err => .result (substitute_type subs ok) (substitute_type subs err)
  | .readonly inner => .readonly (substitute_type subs inner)
  | .weak inner => .weak (substitute_type subs inner)
  | .struct name fields _ => .struct name (substitute_fields subs fields) []
  | .union name variants => .union name (substitute_variants subs variants)
  | .function params return_type _ =>
    .function (substitute_params subs params) (substitute_type subs return_type) []
  | .generic name type_params base =>
    let b := substitute_type subs base
    if type_params.all fun p => (subs.lookup p).isSome then b
    else .generic name type_params base
  | t => t

def substitute_types (subs : List (String × LltsType)) :
    List LltsType → List LltsType
  | [] => []
  | t :: rest => substitute_type subs t :: substitute_types subs rest

def substitute_fields (subs : List (String × LltsType)) :
    List (String × LltsType × Bool × Bool) →
    List (String × LltsType × Bool × Bool)
  | [] => []
  | (n, t, r, o) :: rest =>
    (n, substitute_type subs t, r, o) :: substitute_fields subs rest

def substitute_variants (subs : List (String × LltsType)) :
    List (Int × LltsType) → List (Int × LltsType)
  | [] => []
  | (tag, t) :: rest =>
    (tag, substitute_type subs t) :: substitute_variants subs rest

def substitute_params (subs : List (String × LltsType)) :
    List (String × LltsType) → List (String × LltsType)
  | [] => []
  | (n, t) :: rest =>
    (n, substitute_type subs t) :: substitute_params subs rest

end

mutual

/-- `type_to_suffix`. -/
def type_to_suffix : LltsType → String
  | .number => "number"
  | .i8 => "i8"
  | .i16 => "i16"
  | .i32 => "i32"
  | .i64 => "i64"
  | .u8 => "u8"
  | .u16 => "u16"
  | .u32 => "u32"
  | .u64 => "u64"
  | .f32 => "f32"
  | .f64 => "f64"
  | .boolean => "bool"
  | .string => "string"
  | .void => "void"
  | .never => "never"
  | .struct name _ _ => name
  | .array elem => "arr_" ++ type_to_suffix elem
  | .tuple elems => "tup_" ++ String.intercalate "_" (suffixes elems)
  | .option inner => "opt_" ++ type_to_suffix inner
  | .result ok err => "res_" ++ type_to_suffix ok ++ "_" ++ type_to_suffix err
  | .ref id => "ref" ++ toString id
  | .alias name _ => name
  | _ => "unknown"

def suffixes : List LltsType → List String
  | [] => []
  | t :: rest => type_to_suffix t :: suffixes rest

end

/-- `mangle_name`. -/
def mangle_name (name : String) (type_args : List LltsType) : String :=
  type_args.foldl (fun acc arg => acc ++ "_" ++ type_to_suffix arg) name

/-- `Monomorphizer::monomorphize_function`: returns the mangled name (or
`none` for an unregistered generic) plus the updated monomorphizer. -/
def Monomorphizer.monomorphize_function (m : Monomorphizer) (name : String)
    (type_args : List LltsType) : Option String × Monomorphizer :=
  match m.generic_functions.lookup name with
  | none => (none, m)
  | some (type_params, func_type) =>
    let mangled := mangle_name name type_args
    if (m.instances.lookup mangled).isSome then (some mangled, m)
    else
      let subs := type_params.zip type_args
      let specialized_params :=
        func_type.params.map fun p => (p.1, substitute_type subs p.2)
      let specialized_return := substitute_type subs func_type.return_type
      let specialized :=
        LltsType.function specialized_params specialized_return []
      (some mangled,
       { m with instances :=
          (mangled,
           ⟨name, mangled, type_args, specialized⟩) :: m.instances })

end Monomorph

namespace Unions

open Codegen

/-! ## Discriminated-union detection (`llts_driver/src/pipeline/unions.rs`)

The context pieces the detection reads and writes:
`struct_defs : name -> ordered field list` and
`string_literal_fields : (struct name, field name) -> literal value`.
The Rust function mutates the context and the `structs` / `enums` output
vectors; the model returns the registered definition together with the
pushed payload structs and the pushed enum declaration (`none` models the
early `return`s). -/

abbrev StructDefs := List (String × List (String × LltsType))

abbrev StringLitFields := List ((String × String) × String)

structure DiscriminatedUnionDef where
  discriminant_field : String
  /-- Per variant: (discriminant value, variant struct name, payload type). -/
  variants : List (String × String × LltsType)
  union_type : LltsType

/-- The member loop: every union member must be a type reference to a known
struct; otherwise the detection bails out. -/
def collect_variant_names (struct_defs : StructDefs) :
    List TSTy → Option (List String)
  | [] => some []
  | .typeRef name _ :: rest =>
    if (struct_defs.lookup name).isSome then
      (collect_variant_names struct_defs rest).map (name :: ·)
    else none
  | _ :: _ => none

/-- The `string_literal_fields.keys()` scan restricted to the first
variant: the candidate discriminant field names, in map-iteration order. -/
def first_fields (slf : StringLitFields) (first : String) : List String :=
  (slf.filter fun e => e.1.1 = first).map fun e => e.1.2

/-- The inner loop over the variants for one candidate field: collect each
variant's literal value into `values_unique`, bailing out on a missing
field or a repeated value. -/
def disc_values_loop (slf : StringLitFields) (field : String) :
    List String → List String → Option (List String)
  | [], seen => some seen
  | sn :: rest, seen =>
    match slf.lookup (sn, field) with
    | none => none
    | some v =>
      if seen.contains v then none
      else disc_values_loop slf field rest (v :: seen)

/-- `all_have_it && values_unique.len() == variant_struct_names.len()`. -/
def check_disc_field (slf : StringLitFields) (sns : List String)
    (field : String) : Bool :=
  match disc_values_loop slf field sns [] with
  | none => false
  | some seen => seen.length = sns.length

/-- The payload of one variant, read from the CURRENT `struct_defs`: the
full struct without the discriminant field (`unwrap`s are guarded by the
discriminant check and modeled with defaults). -/
def variant_payload (struct_defs : StructDefs) (slf : StringLitFields)
    (union_name field sn : String) :
    String × String × List (String × LltsType) :=
  let disc_value := (slf.lookup (sn, field)).getD ""
  let full_fields := (struct_defs.lookup sn).getD []
  let payload_fields := full_fields.filter fun f => f.1 ≠ field
  (disc_value, union_name ++ "_" ++ sn, payload_fields)

/-- The variants loop of `detect_discriminated_union`: each iteration
computes the payload of the next variant from the running `struct_defs`
and then inserts the payload struct into it
(`ctx.struct_defs.insert(payload_struct_name, payload_fields)` happens
mid-loop in the source, so a later variant that happens to be named like
an earlier payload struct reads the inserted entry).  Returns the final
`struct_defs` and the payload triples in variant order. -/
def variants_loop (slf : StringLitFields) (union_name field : String) :
    StructDefs → List String →
    StructDefs × List (String × String × List (String × LltsType))
  | sd, [] => (sd, [])
  | sd, sn :: rest =>
    let p := variant_payload sd slf union_name field sn
    let sd' := (p.2.1, p.2.2) :: sd
    let r := variants_loop slf union_name field sd' rest
    (r.1, p :: r.2)

/-- `detect_discriminated_union`: on success returns the registered
`DiscriminatedUnionDef`, the payload `StructDecl`s pushed to `structs`,
and the `EnumDecl` pushed to `enums`. -/
def detect_discriminated_union (struct_defs : StructDefs)
    (slf : StringLitFields) (union_name : String) (ann : TSTy) :
    Option (DiscriminatedUnionDef ×
            List (String × List (String × LltsType)) ×
            (String × List (String × LltsType))) :=
  match ann with
  | .unionTy members =>
    match collect_variant_names struct_defs members with
    | none => none
    | some sns =>
      if sns.length < 2 then none
      else
        match sns with
        | [] => none
        | first :: _ =>
          match (first_fields slf first).find? (check_disc_field slf sns) with
          | none => none
          | some field =>
            let payloads := (variants_loop slf union_name field struct_defs sns).2
            let variants := payloads.map fun p =>
              (p.1, LltsType.struct p.2.1 p.2.2)
            let named := sns.zip variants
            let enum_variants := (payloads.enum.map fun (tag, p) =>
              ("v" ++ toString tag, LltsType.struct p.2.1 p.2.2))
            let full_union_type := LltsType.union union_name enum_variants
            some
              (⟨field,
                named.map fun p => (p.2.1, p.1, p.2.2),
                full_union_type⟩,
               payloads.map fun p => (p.2.1, p.2.2),
               (union_name, enum_variants))
  | _ => none

end Unions

namespace ModuleGraph

/-! ## Module-graph resolution (`llts_driver/src/pipeline/compile.rs`,
`resolve_module_graph`)

Files are identified by numbers; the import graph is an association list
`file -> direct imports` (resolution of specifiers is abstracted away, and
read/parse failures are out of scope).  The Rust recursion terminates
because the visited set grows, so the model spends one unit of fuel per
nesting level and `resolve_module_graph` supplies enough fuel (the
sufficiency proof is `walk_isSome` below). -/

/-- Direct imports of a file. -/
def imports (g : List (Nat × List Nat)) (file : Nat) : List Nat :=
  (g.lookup file).getD []

/-- `b` is a direct import of `a`. -/
def dimp (g : List (Nat × List Nat)) (a b : Nat) : Prop :=
  b ∈ imports g a

/-- The import graph has no cycle of direct imports. -/
def Acyclic (g : List (Nat × List Nat)) : Prop :=
  ∀ x, ¬ Relation.TransGen (dimp g) x x

/-- The import loop of `walk`: runs the walker `w` (the recursive `walk`
at the next-smaller fuel) over each import in turn, threading the state. -/
def walkList (w : Nat → List Nat × List Nat → Option (List Nat × List Nat)) :
    List Nat → List Nat × List Nat → Option (List Nat × List Nat)
  | [], s => some s
  | i :: rest, s =>
    match w i s with
    | some s' => walkList w rest s'
    | none => none

/-- The recursive `walk` of `resolve_module_graph`: state is
`(visited, order)`; a visited file returns immediately, otherwise the file
is marked visited, its imports are walked, and the file is appended after
its dependencies. -/
def walk (g : List (Nat × List Nat)) : Nat → Nat →
    List Nat × List Nat → Option (List Nat × List Nat)
  | 0, _, _ => none
  | fuel + 1, file, s =>
    if file ∈ s.1 then some s
    else
      match walkList (walk g fuel) (imports g file) (file :: s.1, s.2) with
      | some s' => some (s'.1, s'.2 ++ [file])
      | none => none

/-- `resolve_module_graph`: walk from the entry with empty state.  The fuel
`g.length + 1` always suffices (`resolve_module_graph_isSome`). -/
def resolve_module_graph (g : List (Nat × List Nat)) (entry : Nat) :
    Option (List Nat × List Nat) :=
  walk g (g.length + 1) entry ([], [])

end ModuleGraph

/-! ## Auxiliary definitions used by the statements and proofs -/

namespace Ownership

/-- Rank of a usage in the join order `Escape > Mutate > Read`. -/
def usage_rank : Usage → Nat
  | .read => 0
  | .mutate => 1
  | .escape => 2

end Ownership

namespace Analysis

mutual

/-- No `Alias` node anywhere inside the type.  Reflexivity of
`structurally_equal` can fail on an alias of a dangling reference, so the
reflexivity lemma is stated for alias-free types. -/
def aliasFree : LltsType → Bool
  | .alias _ _ => false
  | .struct _ fields _ => aliasFreeFields fields
  | .array elem => aliasFree elem
  | .tuple elems => aliasFreeList elems
  | .union _ variants => aliasFreeVariants variants
  | .option inner => aliasFree inner
  | .result ok err => aliasFree ok && aliasFree err
  | .function params return_type _ =>
    aliasFreeParams params && aliasFree return_type
  | .generic _ _ base => aliasFree base
  | .readonly inner => aliasFree inner
  | .weak inner => aliasFree inner
  | _ => true

def aliasFreeFields : List (String × LltsType × Bool × Bool) → Bool
  | [] => true
  | f :: rest => aliasFree f.2.1 && aliasFreeFields rest

def aliasFreeList : List LltsType → Bool
  | [] => true
  | t :: rest => aliasFree t && aliasFreeList rest

def aliasFreeVariants : List (Int × LltsType) → Bool
  | [] => true
  | v :: rest => aliasFree v.2 && aliasFreeVariants rest

def aliasFreeParams : List (String × LltsType) → Bool
  | [] => true
  | p :: rest => aliasFree p.2 && aliasFreeParams rest

end

mutual

/-- Fuel needed by `structurally_equal` to compare an alias-free type with
itself. -/
def sdepth : LltsType → Nat
  | .struct _ fields _ => sdepthFields fields + 1
  | .array elem => sdepth elem + 1
  | .tuple elems => sdepthList elems + 1
  | .option inner => sdepth inner + 1
  | .result ok err => Nat.max (sdepth ok) (sdepth err) + 1
  | .function params return_type _ =>
    Nat.max (sdepthParams params) (sdepth return_type) + 1
  | .readonly inner => sdepth inner + 1
  | .weak inner => sdepth inner + 1
  | _ => 1

def sdepthFields : List (String × LltsType × Bool × Bool) → Nat
  | [] => 0
  | f :: rest => Nat.max (sdepth f.2.1) (sdepthFields rest)

def sdepthList : List LltsType → Nat
  | [] => 0
  | t :: rest => Nat.max (sdepth t) (sdepthList rest)

def sdepthParams : List (String × LltsType) → Nat
  | [] => 0
  | p :: rest => Nat.max (sdepth p.2) (sdepthParams rest)

end

/-- Counterexample registry: `N` registered as `I32`, then re-registered
as `String` (which `register` ignores). -/
def regAfterI32 : TypeRegistry := (TypeRegistry.new.register "N" .i32).2

def regAfterRereg : TypeRegistry := (regAfterI32.register "N" .string).2

end Analysis

namespace Borrow

/-- The claim's scenario: `function f(a: Readonly<Array<i32>>) { a.push(1); }`. -/
def readonlyPushExample : FunctionAst :=
  { id := some "f",
    params :=
      [⟨BindingPat.bindingIdent "a",
        some (.typeRef "Readonly" [.typeRef "Array" [.typeRef "i32" []]]),
        0⟩],
    body :=
      some [Stmt.exprStmt
        (.call (.staticMember (.ident "a" 1) "push" 2)
               [.plain (.numLit 1 3)] 4)] }

/-- A Readonly-aware resolver for the scenario's annotation, as
`TypeResolver::resolve_ts_type` (which maps `Readonly<T>` to
`Readonly(T)`) produces for it. -/
def rtReadonlyAware : TSTy → Analysis.LltsType
  | .typeRef "Readonly" [.typeRef "Array" [.typeRef "i32" []]] =>
    .readonly (.array .i32)
  | _ => .unknown

end Borrow

namespace Unions

/-- A union member is a reference to a known record type named `nm`. -/
def KnownStructRef (struct_defs : StructDefs) (t : TSTy) (nm : String) : Prop :=
  (∃ args, t = TSTy.typeRef nm args) ∧ (struct_defs.lookup nm).isSome = true

/-- The declarative reading of the discriminant check for one field: every
variant declares the field as a string literal, and the literal values are
pairwise distinct. -/
def DiscFieldOk (slf : StringLitFields) (sns : List String)
    (field : String) : Prop :=
  (∀ sn ∈ sns, ((slf.lookup (sn, field)).isSome = true)) ∧
  (sns.map fun sn => (slf.lookup (sn, field)).getD "").Nodup

/-- Counterexample data: two record types that share two
string-literal-typed fields (`kind` and `sort`), each with pairwise
distinct values. -/
def twoFieldStructDefs : StructDefs :=
  [("A", [("kind", .f64), ("sort", .f64), ("x", .i32)]),
   ("B", [("kind", .f64), ("sort", .f64), ("y", .i32)])]

def twoFieldSlf : StringLitFields :=
  [(("A", "kind"), "a"), (("A", "sort"), "x"),
   (("B", "kind"), "b"), (("B", "sort"), "y")]

/-- Counterexample data for the payload clause: the second variant is
named like the payload struct of the first (`U_A`), so the mid-loop
insertion clobbers the entry its payload is read from. -/
def clobberStructDefs : StructDefs :=
  [("A", [("kind", .i32), ("x", .i32)]),
   ("U_A", [("kind", .i32), ("y", .i32)])]

def clobberSlf : StringLitFields :=
  [(("A", "kind"), "a"), (("U_A", "kind"), "b")]

end Unions

namespace ModuleGraph

/-- `a` appears strictly before `b` in `l`. -/
def Before (l : List Nat) (a b : Nat) : Prop :=
  ∃ i j, i < j ∧ l.get? i = some a ∧ l.get? j = some b

/-- The keys of the graph not yet visited: the termination/fuel measure of
the walk. -/
def unvisitedKeys (g : List (Nat × List Nat)) (visited : List Nat) : Nat :=
  ((g.map Prod.fst).filter fun k => decide (k ∉ visited)).length

/-- The state change of one `walk` call: the order grows by a duplicate-free
block of previously unvisited files reachable from `f`, and the new visited
set is the old one plus exactly that block. -/
def DeltaSpec (g : List (Nat × List Nat)) (f : Nat)
    (V O V' O' : List Nat) : Prop :=
  ∃ Δ, O' = O ++ Δ ∧ (∀ x, x ∈ V' ↔ x ∈ Δ ∨ x ∈ V) ∧ Δ.Nodup ∧
    (∀ x ∈ Δ, x ∉ V) ∧
    (∀ u ∈ Δ, u = f ∨ Relation.TransGen (dimp g) f u) ∧ f ∈ V'

/-- The state change of one `walkList` run over the import list `l`. -/
def DeltaSpecList (g : List (Nat × List Nat)) (l : List Nat)
    (V O V' O' : List Nat) : Prop :=
  ∃ Δ, O' = O ++ Δ ∧ (∀ x, x ∈ V' ↔ x ∈ Δ ∨ x ∈ V) ∧ Δ.Nodup ∧
    (∀ x ∈ Δ, x ∉ V) ∧
    (∀ u ∈ Δ, ∃ i ∈ l, u = i ∨ Relation.TransGen (dimp g) i u) ∧
    (∀ i ∈ l, i ∈ V')

/-- The emitted order is closed under transitive imports, each import
placed strictly earlier than its importer. -/
def OrderClosed (g : List (Nat × List Nat)) (O : List Nat) : Prop :=
  ∀ u ∈ O, ∀ w, Relation.TransGen (dimp g) u w → w ∈ O ∧ Before O w u

/-- An example import graph: `0` imports `1` and `2`, `1` imports `2`. -/
def mgEx : List (Nat × List Nat) := [(0, [1, 2]), (1, [2]), (2, [])]

end ModuleGraph

namespace Pipeline

/-- The lowered non-null members of a union annotation (what the member
loop accumulates in `types`). -/
def lowered_nonnull (e : List String) (ts : List TSTy) :
    List Codegen.LltsType :=
  (ts.filter fun t => !isNullish t).map (lower_ts_type_with_enums e)

end Pipeline

/-! # Theorems -/

/-- Looking up the key just prepended to an association list. -/
theorem lookup_cons_self {β : Type} (k : String) (v : β)
    (l : List (String × β)) : ((k, v) :: l).lookup k = some v := by
  simp [List.lookup]

/-- C10: `mark_moved` on a tracked non-copy variable appends a
use-after-move error iff the variable is already `Moved`; from a borrowed
state it silently moves the variable; on copy-typed variables it is the
identity. -/
theorem mark_moved_spec (bc : Borrow.BorrowChecker) (name : String)
    (span : Nat) (st : Borrow.BorrowState) :
    ((bc.copy_types.lookup name).getD false = false →
      bc.states.lookup name = some st →
      (((bc.mark_moved name span).errors =
          bc.errors ++ [⟨span, .useAfterMove name⟩]) ↔ st = .moved) ∧
      ((st = .moved → (bc.mark_moved name span).states = bc.states) ∧
       (((∃ n, st = .immutableBorrow n) ∨ st = .mutableBorrow) →
         (bc.mark_moved name span).errors = bc.errors ∧
         (bc.mark_moved name span).states.lookup name = some .moved))) ∧
    ((bc.copy_types.lookup name).getD false = true →
      bc.mark_moved name span = bc) := by
  constructor
  · intro hnc htr
    simp only [Borrow.BorrowChecker.mark_moved, hnc, htr, if_false,
      Bool.false_eq_true, ite_false]
    by_cases hmv : st = Borrow.BorrowState.moved
    · subst hmv
      simp [lookup_cons_self]
    · simp only [hmv, ite_false]
      refine ⟨?_, ?_, ?_⟩
      · rw [iff_false]
        intro h
        have := congrArg List.length h
        simp at this
      · intro h; exact h.elim
      · intro _
        exact ⟨trivial, lookup_cons_self _ _ _⟩
  · intro hc
    simp [Borrow.BorrowChecker.mark_moved, hc]

/-- Witness for `mark_moved_spec`: a declared array variable put under an
immutable borrow, then moved — no error, state becomes `Moved`. -/
theorem mark_moved_spec_witness :
    (((Borrow.BorrowChecker.new.declare "x" (.array .i32)).borrow_immutable
        "x" 1).mark_moved "x" 5).errors = [] ∧
    (((Borrow.BorrowChecker.new.declare "x" (.array .i32)).borrow_immutable
        "x" 1).mark_moved "x" 5).states.lookup "x" =
      some Borrow.BorrowState.moved := by
  have h := (mark_moved_spec
    ((Borrow.BorrowChecker.new.declare "x" (.array .i32)).borrow_immutable "x" 1)
    "x" 5 (.immutableBorrow 1)).1 (by decide) (by decide)
  have h2 := h.2.2 (Or.inl ⟨1, rfl⟩)
  exact ⟨h2.1, h2.2⟩

/-- C9: monomorphizing the same registered generic function twice with the
same argument list returns the mangled name both times and leaves the
monomorphizer (in particular its instance set) unchanged after the first
call. -/
theorem monomorphize_idempotent (m : Monomorph.Monomorphizer) (f : String)
    (P : List String) (ft : Monomorph.FunctionTy)
    (A : List Analysis.LltsType)
    (hreg : m.generic_functions.lookup f = some (P, ft))
    (hlen : A.length = P.length) :
    (m.monomorphize_function f A).1 = some (Monomorph.mangle_name f A) ∧
    ((m.monomorphize_function f A).2.monomorphize_function f A).1 =
      (m.monomorphize_function f A).1 ∧
    ((m.monomorphize_function f A).2.monomorphize_function f A).2 =
      (m.monomorphize_function f A).2 := by
  by_cases hins :
      (m.instances.lookup (Monomorph.mangle_name f A)).isSome = true
  · simp [Monomorph.Monomorphizer.monomorphize_function, hreg, hins]
  · have h1 : m.monomorphize_function f A =
        (some (Monomorph.mangle_name f A),
         { m with instances :=
            (Monomorph.mangle_name f A,
             ⟨f, Monomorph.mangle_name f A, A,
              Analysis.LltsType.function
                (ft.params.map fun p =>
                  (p.1, Monomorph.substitute_type (P.zip A) p.2))
                (Monomorph.substitute_type (P.zip A) ft.return_type)
                []⟩) :: m.instances }) := by
      simp [Monomorph.Monomorphizer.monomorphize_function, hreg, hins]
    rw [h1]
    refine ⟨rfl, ?_, ?_⟩ <;>
      simp [Monomorph.Monomorphizer.monomorphize_function, hreg,
        lookup_cons_self]

/-- Witness for `monomorphize_idempotent`: the spec's `identity` scenario
monomorphized at `i32`, twice. -/
theorem monomorphize_idempotent_witness :
    ((Monomorph.Monomorphizer.new.register_generic_function "identity" ["T"]
        ⟨[("x", .alias "T" .unknown)], .alias "T" .unknown, ["T"]⟩
      ).monomorphize_function "identity" [.i32]).1 = some "identity_i32" := by
  have h := monomorphize_idempotent
    (Monomorph.Monomorphizer.new.register_generic_function "identity" ["T"]
      ⟨[("x", .alias "T" .unknown)], .alias "T" .unknown, ["T"]⟩)
    "identity" ["T"] ⟨[("x", .alias "T" .unknown)], .alias "T" .unknown, ["T"]⟩
    [.i32] (by simp [Monomorph.Monomorphizer.register_generic_function,
      Monomorph.Monomorphizer.new, lookup_cons_self]) (by decide)
  exact h.1.trans (by rfl)

/-! ### Union lowering: helper lemmas -/

/-- The member loop of the union arm computes the lowered non-null members
and the null flag. -/
theorem lower_union_members_eq (e : List String) (ts : List TSTy) :
    Pipeline.lower_union_members e ts =
      ((ts.filter fun t => !Pipeline.isNullish t).map
        (Pipeline.lower_ts_type_with_enums e),
       ts.any Pipeline.isNullish) := by
  induction ts with
  | nil => rfl
  | cons t rest ih =>
    by_cases h : Pipeline.isNullish t = true <;>
      simp [Pipeline.lower_union_members, ih, h]

/-- A list without string-literal members has no string literals. -/
theorem string_lits_nil (ts : List TSTy)
    (h : ∀ t ∈ ts, ∀ s, t ≠ TSTy.litStr s) :
    Pipeline.string_lits ts = [] := by
  induction ts with
  | nil => rfl
  | cons t rest ih =>
    have ht := h t (List.mem_cons_self t rest)
    have hrest := ih fun u hu => h u (List.mem_cons_of_mem t hu)
    cases t <;> simp_all [Pipeline.string_lits]

/-- All-string-literal member lists have one literal per member. -/
theorem string_lits_all (ts : List TSTy)
    (h : ∀ t ∈ ts, ∃ s, t = TSTy.litStr s) :
    (Pipeline.string_lits ts).length = ts.length := by
  induction ts with
  | nil => rfl
  | cons t rest ih =>
    have hrest := ih fun u hu => h u (List.mem_cons_of_mem t hu)
    obtain ⟨s, hs⟩ := h t (List.mem_cons_self t rest)
    subst hs
    simp [Pipeline.string_lits] at hrest ⊢
    exact hrest

/-- `listMax?` of a nonempty list is its greatest element. -/
theorem listMax?_spec (l : List Nat) (hne : l ≠ []) :
    ∃ m, Pipeline.listMax? l = some m ∧ m ∈ l ∧ ∀ x ∈ l, x ≤ m := by
  induction l with
  | nil => exact absurd rfl hne
  | cons x xs ih =>
    cases xs with
    | nil =>
      exact ⟨x, rfl, List.mem_singleton.mpr rfl, by
        intro y hy; simp at hy; omega⟩
    | cons y ys =>
      obtain ⟨m, hm, hmem, hmax⟩ := ih (by simp)
      refine ⟨Nat.max x m, ?_, ?_, ?_⟩
      · have hstep : Pipeline.listMax? (x :: y :: ys) =
            some (match Pipeline.listMax? (y :: ys) with
                  | none => x
                  | some m => Nat.max x m) := rfl
        rw [hstep, hm]
      · rcases Nat.le_total x m with h | h
        · have hxm : Nat.max x m = m := Nat.max_eq_right h
          rw [hxm]
          exact List.mem_cons_of_mem x hmem
        · have hxm : Nat.max x m = x := Nat.max_eq_left h
          rw [hxm]
          exact List.mem_cons_self _ _
      · intro z hz
        rcases List.mem_cons.mp hz with rfl | hz
        · exact Nat.le_max_left _ _
        · exact le_trans (hmax z hz) (Nat.le_max_right _ _)

/-- Numeric codegen types have width 8, 16, 32 or 64. -/
theorem numeric_bw_cases (t : Codegen.LltsType)
    (h : Codegen.TypeRegistry.is_numeric t = true) :
    Codegen.TypeRegistry.bit_width t = 8 ∨
    Codegen.TypeRegistry.bit_width t = 16 ∨
    Codegen.TypeRegistry.bit_width t = 32 ∨
    Codegen.TypeRegistry.bit_width t = 64 := by
  cases t <;> simp_all [Codegen.TypeRegistry.is_numeric,
    Codegen.TypeRegistry.is_integer, Codegen.TypeRegistry.is_signed,
    Codegen.TypeRegistry.is_unsigned, Codegen.TypeRegistry.is_float,
    Codegen.TypeRegistry.bit_width]

/-- Float codegen types have width 32 or 64. -/
theorem float_bw_cases (t : Codegen.LltsType)
    (h : Codegen.TypeRegistry.is_float t = true) :
    Codegen.TypeRegistry.bit_width t = 32 ∨
    Codegen.TypeRegistry.bit_width t = 64 := by
  cases t <;> simp_all [Codegen.TypeRegistry.is_float,
    Codegen.TypeRegistry.bit_width]

/-- A numeric non-float type is an integer type. -/
theorem numeric_not_float_integer (t : Codegen.LltsType)
    (h : Codegen.TypeRegistry.is_numeric t = true)
    (hf : Codegen.TypeRegistry.is_float t = false) :
    Codegen.TypeRegistry.is_integer t = true := by
  simp [Codegen.TypeRegistry.is_numeric, hf] at h
  exact h

/-- The numeric collapse picks the numeric type that is float iff some
variant is float, has the maximum width, and is signed whenever no float
and some signed variant is present. -/
theorem collapse_numeric_union_spec (L : List Codegen.LltsType)
    (hne : L ≠ []) (hnum : ∀ x ∈ L, Codegen.TypeRegistry.is_numeric x = true) :
    Codegen.TypeRegistry.is_numeric (Pipeline.collapse_numeric_union L) = true ∧
    Codegen.TypeRegistry.is_float (Pipeline.collapse_numeric_union L) =
      L.any Codegen.TypeRegistry.is_float ∧
    Pipeline.listMax? (L.map Codegen.TypeRegistry.bit_width) =
      some (Codegen.TypeRegistry.bit_width (Pipeline.collapse_numeric_union L)) ∧
    (L.any Codegen.TypeRegistry.is_float = false →
      L.any Codegen.TypeRegistry.is_signed = true →
      Codegen.TypeRegistry.is_signed (Pipeline.collapse_numeric_union L) = true) := by
  obtain ⟨M, hM, hMmem, hMmax⟩ :=
    listMax?_spec (L.map Codegen.TypeRegistry.bit_width) (by simpa using hne)
  obtain ⟨tM, htM, htMw⟩ := List.mem_map.mp hMmem
  have hMcases := numeric_bw_cases tM (hnum tM htM)
  by_cases hf : L.any Codegen.TypeRegistry.is_float = true
  · -- float case
    obtain ⟨f0, hf0, hf0f⟩ := List.any_eq_true.mp hf
    have hWfne : (L.filter Codegen.TypeRegistry.is_float).map
        Codegen.TypeRegistry.bit_width ≠ [] := by
      simp only [ne_eq, List.map_eq_nil, List.filter_eq_nil]
      push_neg
      exact ⟨f0, hf0, by simp [hf0f]⟩
    obtain ⟨mf, hmf, hmfmem, hmfmax⟩ := listMax?_spec _ hWfne
    have hmf_leM : mf ≤ M := by
      obtain ⟨tf, htf, htfw⟩ := List.mem_map.mp hmfmem
      have : tf ∈ L := List.mem_of_mem_filter htf
      exact htfw ▸ hMmax _ (List.mem_map_of_mem _ this)
    have hmf_ge32 : 32 ≤ mf := by
      have h32 : Codegen.TypeRegistry.bit_width f0 ∈
          (L.filter Codegen.TypeRegistry.is_float).map
            Codegen.TypeRegistry.bit_width :=
        List.mem_map_of_mem _ (List.mem_filter.mpr ⟨hf0, hf0f⟩)
      rcases float_bw_cases f0 hf0f with h | h <;>
        have := hmfmax _ h32 <;> omega
    have hmi_leM : ((Pipeline.listMax?
        ((L.filter Codegen.TypeRegistry.is_integer).map
          Codegen.TypeRegistry.bit_width)).getD 0) ≤ M := by
      cases hWi : (L.filter Codegen.TypeRegistry.is_integer).map
          Codegen.TypeRegistry.bit_width with
      | nil => simp [hWi, Pipeline.listMax?]
      | cons a l =>
        obtain ⟨mi, hmi, hmimem, _⟩ := listMax?_spec (a :: l) (by simp)
        rw [hmi]
        simp only [Option.getD_some]
        rw [← hWi] at hmimem
        obtain ⟨ti, hti, htiw⟩ := List.mem_map.mp hmimem
        have : ti ∈ L := List.mem_of_mem_filter hti
        exact htiw ▸ hMmax _ (List.mem_map_of_mem _ this)
    have hneeded : Nat.max ((Pipeline.listMax?
        ((L.filter Codegen.TypeRegistry.is_float).map
          Codegen.TypeRegistry.bit_width)).getD 64)
        ((Pipeline.listMax?
          ((L.filter Codegen.TypeRegistry.is_integer).map
            Codegen.TypeRegistry.bit_width)).getD 0) = M := by
      rw [hmf]
      simp only [Option.getD_some]
      -- needed ≤ M and M ≤ needed
      apply Nat.le_antisymm
      · exact Nat.max_le.mpr ⟨hmf_leM, hmi_leM⟩
      · by_cases htMf : Codegen.TypeRegistry.is_float tM = true
        · have : M ∈ (L.filter Codegen.TypeRegistry.is_float).map
              Codegen.TypeRegistry.bit_width :=
            htMw ▸ List.mem_map_of_mem _ (List.mem_filter.mpr ⟨htM, htMf⟩)
          exact le_trans (hmfmax _ this) (Nat.le_max_left _ _)
        · have htMi := numeric_not_float_integer tM (hnum tM htM)
            (by simpa using htMf)
          have hmem : M ∈ (L.filter Codegen.TypeRegistry.is_integer).map
              Codegen.TypeRegistry.bit_width :=
            htMw ▸ List.mem_map_of_mem _ (List.mem_filter.mpr ⟨htM, htMi⟩)
          obtain ⟨mi, hmi, _, hmimax⟩ := listMax?_spec _
            (List.ne_nil_of_mem hmem)
          have := hmimax _ hmem
          rw [hmi]
          simp only [Option.getD_some]
          exact le_trans this (Nat.le_max_right _ _)
    simp only [Pipeline.collapse_numeric_union, hf, if_true]
    rw [hneeded, hM]
    by_cases h32 : M ≤ 32
    · have hM32 : M = 32 := by
        have : 32 ≤ M := le_trans hmf_ge32 hmf_leM
        omega
      simp [h32, Codegen.TypeRegistry.is_numeric,
        Codegen.TypeRegistry.is_float, Codegen.TypeRegistry.bit_width,
        hM32, hf]
    · have hM64 : M = 64 := by omega
      simp [h32, Codegen.TypeRegistry.is_numeric,
        Codegen.TypeRegistry.is_float, Codegen.TypeRegistry.bit_width,
        hM64, hf]
  · -- integer case
    have hf' : L.any Codegen.TypeRegistry.is_float = false := by
      simpa using hf
    have hint : ∀ x ∈ L, Codegen.TypeRegistry.is_integer x = true := by
      intro x hx
      refine numeric_not_float_integer x (hnum x hx) ?_
      rcases hb : Codegen.TypeRegistry.is_float x with _ | _
      · rfl
      · exact absurd (List.any_eq_true.mpr ⟨x, hx, hb⟩) (by simp [hf'])
    have hbounds : M = 8 ∨ M = 16 ∨ M = 32 ∨ M = 64 := htMw ▸ hMcases
    simp only [Pipeline.collapse_numeric_union, hf', Bool.false_eq_true,
      if_false, hM, Option.getD_some]
    by_cases hs : L.any Codegen.TypeRegistry.is_signed = true
    · simp only [hs, if_true]
      have hw : ∀ r : Codegen.LltsType,
          (r = .i8 ∧ M = 8) ∨ (r = .i16 ∧ M = 16) ∨
          (r = .i32 ∧ M = 32) ∨ (r = .i64 ∧ M = 64) →
          Codegen.TypeRegistry.is_numeric r = true ∧
          Codegen.TypeRegistry.is_float r = false ∧
          Codegen.TypeRegistry.bit_width r = M ∧
          Codegen.TypeRegistry.is_signed r = true := by
        rintro r (⟨rfl, rfl⟩ | ⟨rfl, rfl⟩ | ⟨rfl, rfl⟩ | ⟨rfl, rfl⟩) <;>
          simp [Codegen.TypeRegistry.is_numeric,
            Codegen.TypeRegistry.is_integer, Codegen.TypeRegistry.is_signed,
            Codegen.TypeRegistry.is_float, Codegen.TypeRegistry.bit_width]
      by_cases h8 : M ≤ 8
      · have := hw Codegen.LltsType.i8 (Or.inl ⟨rfl, by omega⟩)
        simp [h8, this.1, this.2.1, this.2.2.1, this.2.2.2, hf']
      · by_cases h16 : M ≤ 16
        · have := hw Codegen.LltsType.i16 (Or.inr (Or.inl ⟨rfl, by omega⟩))
          simp [h8, h16, this.1, this.2.1, this.2.2.1, this.2.2.2, hf']
        · by_cases h32 : M ≤ 32
          · have := hw Codegen.LltsType.i32
              (Or.inr (Or.inr (Or.inl ⟨rfl, by omega⟩)))
            simp [h8, h16, h32, this.1, this.2.1, this.2.2.1, this.2.2.2, hf']
          · have := hw Codegen.LltsType.i64
              (Or.inr (Or.inr (Or.inr ⟨rfl, by omega⟩)))
            simp [h8, h16, h32, this.1, this.2.1, this.2.2.1, this.2.2.2, hf']
    · have hs' : L.any Codegen.TypeRegistry.is_signed = false := by simpa using hs
      simp only [hs', Bool.false_eq_true, if_false]
      have hw : ∀ r : Codegen.LltsType,
          (r = .u8 ∧ M = 8) ∨ (r = .u16 ∧ M = 16) ∨
          (r = .u32 ∧ M = 32) ∨ (r = .u64 ∧ M = 64) →
          Codegen.TypeRegistry.is_numeric r = true ∧
          Codegen.TypeRegistry.is_float r = false ∧
          Codegen.TypeRegistry.bit_width r = M := by
        rintro r (⟨rfl, rfl⟩ | ⟨rfl, rfl⟩ | ⟨rfl, rfl⟩ | ⟨rfl, rfl⟩) <;>
          simp [Codegen.TypeRegistry.is_numeric,
            Codegen.TypeRegistry.is_integer, Codegen.TypeRegistry.is_signed,
            Codegen.TypeRegistry.is_unsigned,
            Codegen.TypeRegistry.is_float, Codegen.TypeRegistry.bit_width]
      by_cases h8 : M ≤ 8
      · have := hw Codegen.LltsType.u8 (Or.inl ⟨rfl, by omega⟩)
        simp [h8, this.1, this.2.1, this.2.2, hf', hs']
      · by_cases h16 : M ≤ 16
        · have := hw Codegen.LltsType.u16 (Or.inr (Or.inl ⟨rfl, by omega⟩))
          simp [h8, h16, this.1, this.2.1, this.2.2, hf', hs']
        · by_cases h32 : M ≤ 32
          · have := hw Codegen.LltsType.u32
              (Or.inr (Or.inr (Or.inl ⟨rfl, by omega⟩)))
            simp [h8, h16, h32, this.1, this.2.1, this.2.2, hf', hs']
          · have := hw Codegen.LltsType.u64
              (Or.inr (Or.inr (Or.inr ⟨rfl, by omega⟩)))
            simp [h8, h16, h32, this.1, this.2.1, this.2.2, hf', hs']

/-- Unfolding of the union arm of `lower_ts_type_with_enums`. -/
theorem lower_union_arm_eq (e : List String) (ts : List TSTy) :
    Pipeline.lower_ts_type_with_enums e (.unionTy ts) =
      (if (Pipeline.string_lits ts).length = ts.length ∧
          ¬ (Pipeline.string_lits ts).isEmpty
       then Codegen.LltsType.i32
       else
         match Pipeline.lower_union_members e ts with
         | ([t], true) => Codegen.LltsType.option t
         | ([t], false) => t
         | (ts', _) =>
           if ¬ ts'.isEmpty ∧ ts'.all Codegen.TypeRegistry.is_numeric then
             Pipeline.collapse_numeric_union ts'
           else
             Codegen.LltsType.union ""
               (ts'.enum.map fun (i, ty) => ("v" ++ toString i, ty))) := rfl

/-- A union all of whose members are string literals lowers to `I32`. -/
theorem all_string_lits_i32 (e : List String) (ts : List TSTy)
    (hne : ts ≠ []) (hall : ∀ t ∈ ts, ∃ s, t = TSTy.litStr s) :
    Pipeline.lower_ts_type_with_enums e (.unionTy ts) =
      Codegen.LltsType.i32 := by
  have h1 := string_lits_all ts hall
  have h2 : ¬ (Pipeline.string_lits ts).isEmpty := by
    cases hl : Pipeline.string_lits ts with
    | nil =>
      rw [hl] at h1
      simp at h1
      exact absurd (List.length_eq_zero.mp h1.symm) hne
    | cons a l => simp
  rw [lower_union_arm_eq, if_pos ⟨h1, h2⟩]

/-- The union arm for two or more lowered non-null members. -/
theorem lower_union_multi (e : List String) (ts : List TSTy)
    (x y : Codegen.LltsType) (l : List Codegen.LltsType) (b : Bool)
    (hcond : ¬ ((Pipeline.string_lits ts).length = ts.length ∧
      ¬ (Pipeline.string_lits ts).isEmpty))
    (hmem : Pipeline.lower_union_members e ts = (x :: y :: l, b)) :
    Pipeline.lower_ts_type_with_enums e (.unionTy ts) =
      (if ¬ (x :: y :: l).isEmpty ∧
          (x :: y :: l).all Codegen.TypeRegistry.is_numeric then
        Pipeline.collapse_numeric_union (x :: y :: l)
       else
        Codegen.LltsType.union ""
          ((x :: y :: l).enum.map fun (i, ty) => ("v" ++ toString i, ty))) := by
  rw [lower_union_arm_eq, if_neg hcond, hmem]

/-- The union arm for a single lowered member and no null. -/
theorem lower_union_single (e : List String) (ts : List TSTy)
    (x : Codegen.LltsType)
    (hcond : ¬ ((Pipeline.string_lits ts).length = ts.length ∧
      ¬ (Pipeline.string_lits ts).isEmpty))
    (hmem : Pipeline.lower_union_members e ts = ([x], false)) :
    Pipeline.lower_ts_type_with_enums e (.unionTy ts) = x := by
  rw [lower_union_arm_eq, if_neg hcond, hmem]

/-- C5: a union of `k ≥ 1` string-literal types resolves to the tag-only
integer type `I32`, so any two such unions (in particular two with
identical variant sets) resolve to equal — hence structurally
equivalent — types. -/
theorem string_literal_union_spec (e : List String) (ts ts₂ : List TSTy)
    (hne : ts ≠ []) (hall : ∀ t ∈ ts, ∃ s, t = TSTy.litStr s)
    (hne₂ : ts₂ ≠ []) (hall₂ : ∀ t ∈ ts₂, ∃ s, t = TSTy.litStr s) :
    Pipeline.lower_ts_type_with_enums e (.unionTy ts) =
      Codegen.LltsType.i32 ∧
    Pipeline.lower_ts_type_with_enums e (.unionTy ts) =
      Pipeline.lower_ts_type_with_enums e (.unionTy ts₂) := by
  have ha := all_string_lits_i32 e ts hne hall
  have hb := all_string_lits_i32 e ts₂ hne₂ hall₂
  exact ⟨ha, ha.trans hb.symm⟩

/-- Witness for `string_literal_union_spec`: `"a" | "b"` against
`"b" | "a"`. -/
theorem string_literal_union_spec_witness :
    Pipeline.lower_ts_type_with_enums []
      (.unionTy [.litStr "a", .litStr "b"]) = Codegen.LltsType.i32 ∧
    Pipeline.lower_ts_type_with_enums []
      (.unionTy [.litStr "a", .litStr "b"]) =
      Pipeline.lower_ts_type_with_enums []
        (.unionTy [.litStr "b", .litStr "a"]) :=
  string_literal_union_spec [] [.litStr "a", .litStr "b"]
    [.litStr "b", .litStr "a"] (by simp)
    (by intro t ht
        simp only [List.mem_cons, List.mem_singleton, List.not_mem_nil,
          or_false] at ht
        rcases ht with rfl | rfl
        · exact ⟨"a", rfl⟩
        · exact ⟨"b", rfl⟩)
    (by simp)
    (by intro t ht
        simp only [List.mem_cons, List.mem_singleton, List.not_mem_nil,
          or_false] at ht
        rcases ht with rfl | rfl
        · exact ⟨"b", rfl⟩
        · exact ⟨"a", rfl⟩)

/-- C6 (counterexample): for the type annotation `T = null`, the union
`T | null` resolves to an empty multi-variant union, not to
`Option(resolve T)`. -/
theorem union_null_null_cex :
    Pipeline.lower_ts_type_with_enums [] (.unionTy [.nullKw, .nullKw]) =
      Codegen.LltsType.union "" [] ∧
    Pipeline.lower_ts_type_with_enums [] (.unionTy [.nullKw, .nullKw]) ≠
      Codegen.LltsType.option
        (Pipeline.lower_ts_type_with_enums [] .nullKw) := by
  refine ⟨rfl, ?_⟩
  intro h
  rw [(rfl : Pipeline.lower_ts_type_with_enums [] (.unionTy [.nullKw, .nullKw]) =
    Codegen.LltsType.union "" [])] at h
  exact Codegen.LltsType.noConfusion h

/-- C6 (amended): for every type annotation `T` other than the bare
`null`/`undefined` keywords, `T | null` and `null | T` both resolve to
`Option(resolve T)`, and the normalization is idempotent:
`T | null | null` also resolves to `Option(resolve T)`. -/
theorem union_null_option (e : List String) (t : TSTy)
    (h1 : t ≠ TSTy.nullKw) (h2 : t ≠ TSTy.undefinedKw) :
    Pipeline.lower_ts_type_with_enums e (.unionTy [t, .nullKw]) =
      Codegen.LltsType.option (Pipeline.lower_ts_type_with_enums e t) ∧
    Pipeline.lower_ts_type_with_enums e (.unionTy [.nullKw, t]) =
      Codegen.LltsType.option (Pipeline.lower_ts_type_with_enums e t) ∧
    Pipeline.lower_ts_type_with_enums e (.unionTy [t, .nullKw, .nullKw]) =
      Codegen.LltsType.option (Pipeline.lower_ts_type_with_enums e t) := by
  cases t <;> try exact ⟨rfl, rfl, rfl⟩
  · exact absurd rfl h1
  · exact absurd rfl h2

/-- Witness for `union_null_option`: `i32 | null`, `null | i32` and
`i32 | null | null` all resolve to `Option(i32)`. -/
theorem union_null_option_witness :
    Pipeline.lower_ts_type_with_enums []
      (.unionTy [.typeRef "i32" [], .nullKw]) =
      Codegen.LltsType.option Codegen.LltsType.i32 ∧
    Pipeline.lower_ts_type_with_enums []
      (.unionTy [.nullKw, .typeRef "i32" []]) =
      Codegen.LltsType.option Codegen.LltsType.i32 ∧
    Pipeline.lower_ts_type_with_enums []
      (.unionTy [.typeRef "i32" [], .nullKw, .nullKw]) =
      Codegen.LltsType.option Codegen.LltsType.i32 :=
  union_null_option [] (.typeRef "i32" [])
    (by intro h; exact TSTy.noConfusion h)
    (by intro h; exact TSTy.noConfusion h)

/-- C4 (counterexample): `i32 | null` has only numeric variants apart from
`null`, yet resolves to `Option(i32)`, which is not a numeric type. -/
theorem numeric_union_null_cex :
    Pipeline.lower_ts_type_with_enums []
      (.unionTy [.typeRef "i32" [], .nullKw]) =
      Codegen.LltsType.option Codegen.LltsType.i32 ∧
    Codegen.TypeRegistry.is_numeric
      (Codegen.LltsType.option Codegen.LltsType.i32) = false := ⟨rfl, rfl⟩

/-- C4 (amended): a union annotation whose non-null members are numeric
(non-literal) annotations, with at least two of them — or exactly one and
no null — resolves to a single numeric type: float iff some member is
float, width the maximum of the member widths, signed whenever no float
member exists and some member is signed (in particular on mixed
signed/unsigned members of the same width). -/
theorem numeric_union_collapse (e : List String) (ts : List TSTy)
    (hvar : ∀ t ∈ ts, Pipeline.isNullish t = true ∨
      (Codegen.TypeRegistry.is_numeric
        (Pipeline.lower_ts_type_with_enums e t) = true ∧
       ∀ s, t ≠ TSTy.litStr s))
    (hcard : 2 ≤ (Pipeline.lowered_nonnull e ts).length ∨
      ((Pipeline.lowered_nonnull e ts).length = 1 ∧
       ts.any Pipeline.isNullish = false)) :
    Codegen.TypeRegistry.is_numeric
      (Pipeline.lower_ts_type_with_enums e (.unionTy ts)) = true ∧
    Codegen.TypeRegistry.is_float
        (Pipeline.lower_ts_type_with_enums e (.unionTy ts)) =
      (Pipeline.lowered_nonnull e ts).any Codegen.TypeRegistry.is_float ∧
    Pipeline.listMax?
        ((Pipeline.lowered_nonnull e ts).map Codegen.TypeRegistry.bit_width) =
      some (Codegen.TypeRegistry.bit_width
        (Pipeline.lower_ts_type_with_enums e (.unionTy ts))) ∧
    ((Pipeline.lowered_nonnull e ts).any Codegen.TypeRegistry.is_float = false →
      (Pipeline.lowered_nonnull e ts).any Codegen.TypeRegistry.is_signed = true →
      Codegen.TypeRegistry.is_signed
        (Pipeline.lower_ts_type_with_enums e (.unionTy ts)) = true) := by
  have hnolit : ∀ t ∈ ts, ∀ s, t ≠ TSTy.litStr s := by
    intro t ht s heq
    rcases hvar t ht with hn | ⟨_, hlit⟩
    · subst heq; simp [Pipeline.isNullish] at hn
    · exact hlit s heq
  have hlits := string_lits_nil ts hnolit
  have hnum : ∀ x ∈ Pipeline.lowered_nonnull e ts,
      Codegen.TypeRegistry.is_numeric x = true := by
    intro x hx
    obtain ⟨t, ht, rfl⟩ := List.mem_map.mp hx
    obtain ⟨ht', htn⟩ := List.mem_filter.mp ht
    rcases hvar t ht' with hn | ⟨h, _⟩
    · simp [hn] at htn
    · exact h
  have hcond : ¬ ((Pipeline.string_lits ts).length = ts.length ∧
      ¬ (Pipeline.string_lits ts).isEmpty) := by
    rw [hlits]; simp
  have hmem2 : Pipeline.lower_union_members e ts =
      (Pipeline.lowered_nonnull e ts, ts.any Pipeline.isNullish) :=
    lower_union_members_eq e ts
  rcases hcard with hge2 | ⟨h1, hnull⟩
  · obtain ⟨x, y, l, hL⟩ : ∃ x y l,
        Pipeline.lowered_nonnull e ts = x :: y :: l := by
      match hL : Pipeline.lowered_nonnull e ts with
      | [] => rw [hL] at hge2; simp at hge2
      | [x] => rw [hL] at hge2; simp at hge2
      | x :: y :: l => exact ⟨x, y, l, rfl⟩
    have hnum' : ∀ z ∈ (x :: y :: l : List Codegen.LltsType),
        Codegen.TypeRegistry.is_numeric z = true := fun z hz =>
      hnum z (hL ▸ hz)
    have hstep := lower_union_multi e ts x y l (ts.any Pipeline.isNullish)
      hcond (by rw [hmem2, hL])
    rw [if_pos ⟨by simp, List.all_eq_true.mpr hnum'⟩] at hstep
    have hspec := collapse_numeric_union_spec (x :: y :: l) (by simp) hnum'
    rw [hstep, hL]
    exact ⟨hspec.1, hspec.2.1, hspec.2.2.1, hspec.2.2.2⟩
  · obtain ⟨x, hL⟩ : ∃ x, Pipeline.lowered_nonnull e ts = [x] := by
      match hL : Pipeline.lowered_nonnull e ts with
      | [] => rw [hL] at h1; simp at h1
      | [x] => exact ⟨x, rfl⟩
      | x :: y :: l => rw [hL] at h1; simp at h1
    have hstep := lower_union_single e ts x hcond
      (by rw [hmem2, hL, hnull])
    have hxnum : Codegen.TypeRegistry.is_numeric x = true :=
      hnum x (hL ▸ List.mem_singleton.mpr rfl)
    rw [hstep, hL]
    refine ⟨hxnum, by simp, by rfl, ?_⟩
    intro _ hs
    simpa using hs

/-- Witness for `numeric_union_collapse`: `i8 | u32 | null` collapses to
the numeric type `I32` (signed wins, width is the maximum). -/
theorem numeric_union_collapse_witness :
    Codegen.TypeRegistry.is_numeric (Pipeline.lower_ts_type_with_enums []
      (.unionTy [.typeRef "i8" [], .typeRef "u32" [], .nullKw])) = true ∧
    Pipeline.lower_ts_type_with_enums []
      (.unionTy [.typeRef "i8" [], .typeRef "u32" [], .nullKw]) =
      Codegen.LltsType.i32 :=
  ⟨(numeric_union_collapse [] [.typeRef "i8" [], .typeRef "u32" [], .nullKw]
      (by intro t ht
          simp only [List.mem_cons, List.not_mem_nil, or_false] at ht
          rcases ht with rfl | rfl | rfl
          · exact Or.inr ⟨rfl, fun s h => TSTy.noConfusion h⟩
          · exact Or.inr ⟨rfl, fun s h => TSTy.noConfusion h⟩
          · exact Or.inl rfl)
      (Or.inl (by decide))).1, rfl⟩

/-! ### Ownership usage join -/

/-- `max_usage` computes the maximum in the rank order
`Read < Mutate < Escape`. -/
theorem usage_rank_max_usage (a b : Ownership.Usage) :
    Ownership.usage_rank (Ownership.max_usage a b) =
      Nat.max (Ownership.usage_rank a) (Ownership.usage_rank b) := by
  cases a <;> cases b <;> rfl

/-- `max_usage` returns one of its arguments. -/
theorem max_usage_eq_or (a b : Ownership.Usage) :
    Ownership.max_usage a b = a ∨ Ownership.max_usage a b = b := by
  cases a <;> cases b <;> simp [Ownership.max_usage]

/-- Usage ranks are at most 2, and rank 2 means `Escape`. -/
theorem usage_rank_le_two (u : Ownership.Usage) :
    Ownership.usage_rank u ≤ 2 ∧
      (Ownership.usage_rank u = 2 → u = .escape) := by
  cases u <;> simp [Ownership.usage_rank]

/-- The statement fold is an upper bound of the seed and of every
statement's usage. -/
theorem scan_statements_ge (name : String) (u : Ownership.Usage)
    (l : List Stmt) :
    Ownership.usage_rank u ≤
      Ownership.usage_rank (Ownership.scan_statements name u l) ∧
    ∀ s ∈ l, Ownership.usage_rank (Ownership.scan_statement_for_usage name s) ≤
      Ownership.usage_rank (Ownership.scan_statements name u l) := by
  induction l generalizing u with
  | nil => exact ⟨Nat.le_refl _, by intro s hs; simp at hs⟩
  | cons s rest ih =>
    have hstep := ih (Ownership.max_usage u
      (Ownership.scan_statement_for_usage name s))
    have hrank := usage_rank_max_usage u
      (Ownership.scan_statement_for_usage name s)
    constructor
    · exact le_trans (hrank ▸ Nat.le_max_left _ _) hstep.1
    · intro s' hs'
      rcases List.mem_cons.mp hs' with rfl | hs'
      · exact le_trans (hrank ▸ Nat.le_max_right _ _) hstep.1
      · exact hstep.2 s' hs'

/-- The statement fold returns the seed or some statement's usage. -/
theorem scan_statements_attains (name : String) (u : Ownership.Usage)
    (l : List Stmt) :
    Ownership.scan_statements name u l = u ∨
    ∃ s ∈ l, Ownership.scan_statements name u l =
      Ownership.scan_statement_for_usage name s := by
  induction l generalizing u with
  | nil => exact Or.inl rfl
  | cons s rest ih =>
    rcases ih (Ownership.max_usage u
      (Ownership.scan_statement_for_usage name s)) with h | ⟨s', hs', h⟩
    · rcases max_usage_eq_or u (Ownership.scan_statement_for_usage name s)
        with hm | hm
      · exact Or.inl (by rw [Ownership.scan_statements, h, hm])
      · exact Or.inr ⟨s, List.mem_cons_self s rest,
          by rw [Ownership.scan_statements, h, hm]⟩
    · exact Or.inr ⟨s', List.mem_cons_of_mem s hs',
        by rw [Ownership.scan_statements, h]⟩

/-- C7: the inferred parameter usage is the join of the per-statement
usages under `Escape > Mutate > Read`; classification maps
`Read → Borrow`, `Mutate → MutableBorrow`, `Escape → Owned`; a parameter
returned by a top-level return statement is classified `Owned`. -/
theorem param_usage_join_spec (name : String) (stmts : List Stmt)
    (ty : Analysis.LltsType) :
    (∀ s ∈ stmts,
      Ownership.usage_rank (Ownership.scan_statement_for_usage name s) ≤
        Ownership.usage_rank (Ownership.scan_param_usage name (some stmts))) ∧
    (Ownership.scan_param_usage name (some stmts) = .read ∨
      ∃ s ∈ stmts, Ownership.scan_param_usage name (some stmts) =
        Ownership.scan_statement_for_usage name s) ∧
    Ownership.infer_param_ownership ty .read = .borrow ∧
    Ownership.infer_param_ownership ty .mutate = .mutableBorrow ∧
    Ownership.infer_param_ownership ty .escape = .owned ∧
    (∀ sp, Stmt.ret (some (.ident name sp)) ∈ stmts →
      Ownership.infer_param_ownership ty
        (Ownership.scan_param_usage name (some stmts)) = .owned) := by
  have hfold : Ownership.scan_param_usage name (some stmts) =
      Ownership.scan_statements name .read stmts := rfl
  refine ⟨?_, ?_, rfl, rfl, ?_, ?_⟩
  · rw [hfold]; exact (scan_statements_ge name .read stmts).2
  · rw [hfold]; exact scan_statements_attains name .read stmts
  · simp [Ownership.infer_param_ownership, ite_self]
  · intro sp hmem
    have hscan : Ownership.scan_statement_for_usage name
        (Stmt.ret (some (.ident name sp))) = .escape := by
      simp [Ownership.scan_statement_for_usage,
        Ownership.scan_expression_for_usage, Ownership.expr_references_name]
    have hge := (scan_statements_ge name .read stmts).2 _ hmem
    rw [hscan] at hge
    have h2 := usage_rank_le_two (Ownership.scan_statements name .read stmts)
    have hesc : Ownership.scan_statements name .read stmts = .escape :=
      h2.2 (by
        have : (2 : Nat) ≤ Ownership.usage_rank
            (Ownership.scan_statements name .read stmts) := hge
        omega)
    rw [hfold, hesc]
    simp [Ownership.infer_param_ownership, ite_self]

/-- Witness for `param_usage_join_spec`: the body `{ return x; }` with an
array-typed parameter `x` is classified `Owned`. -/
theorem param_usage_join_spec_witness :
    Ownership.infer_param_ownership (.array .i32)
      (Ownership.scan_param_usage "x"
        (some [Stmt.ret (some (.ident "x" 3))])) = .owned :=
  (param_usage_join_spec "x" [Stmt.ret (some (.ident "x" 3))]
    (.array .i32)).2.2.2.2.2 3 (List.mem_singleton.mpr rfl)

/-! ### Readonly mutation errors -/

/-- C1 (counterexample): on
`function f(a: Readonly<Array<i32>>) { a.push(1); }` the borrow checker
with a Readonly-aware resolver appends two mutate-readonly errors at the
`a.push` span (one from `check_mutation`, one from `borrow_mutable`), and
with the pipeline's actual `resolve_type_simple` (which resolves the
`Readonly<...>` annotation to `Unknown`) it appends none — never exactly
one. -/
theorem readonly_push_cex :
    (Borrow.BorrowChecker.check_function Borrow.rtReadonlyAware
      Borrow.BorrowChecker.new Borrow.readonlyPushExample).errors =
      [⟨4, .mutateReadonly "a"⟩, ⟨4, .mutateReadonly "a"⟩] ∧
    (Borrow.BorrowChecker.check_function
      (Analysis.resolve_type_simple Analysis.TypeRegistry.new)
      Borrow.BorrowChecker.new Borrow.readonlyPushExample).errors = [] := by
  constructor <;> rfl

/-- C1 (amended): for a variable registered in the borrow checker with a
`Readonly(_)` type, an assignment or field write appends exactly one
mutate-readonly error, while a mutating method call appends exactly two
(one from the mutation check and one from the mutable-borrow attempt); on
the spec's example the checker therefore reports the `a.push` span
twice. -/
theorem readonly_mutation_errors (bc : Borrow.BorrowChecker) (name : String)
    (span : Nat)
    (hro : (bc.readonlyFlags.lookup name).getD false = true) :
    (bc.check_mutation name span).errors =
      bc.errors ++ [⟨span, .mutateReadonly name⟩] ∧
    (bc.borrow_mutable name span).errors =
      bc.errors ++ [⟨span, .mutateReadonly name⟩] ∧
    (∀ v sp,
      (bc.check_expression
        (.assign (.targetIdent name) (.numLit v sp) span)).errors =
        bc.errors ++ [⟨span, .mutateReadonly name⟩]) ∧
    (∀ fld osp v sp,
      (bc.check_expression
        (.assign (.targetStaticMember (.ident name osp) fld)
          (.numLit v sp) span)).errors =
        bc.errors ++ [⟨span, .mutateReadonly name⟩]) ∧
    (∀ method osp msp v sp, is_mutating_method method = true →
      (bc.check_expression (.call (.staticMember (.ident name osp) method msp)
          [.plain (.numLit v sp)] span)).errors =
        bc.errors ++ [⟨span, .mutateReadonly name⟩,
                      ⟨span, .mutateReadonly name⟩]) ∧
    (∀ rt : TSTy → Analysis.LltsType,
      rt (.typeRef "Readonly" [.typeRef "Array" [.typeRef "i32" []]]) =
        .readonly (.array .i32) →
      (Borrow.BorrowChecker.check_function rt Borrow.BorrowChecker.new
        Borrow.readonlyPushExample).errors =
        [⟨4, .mutateReadonly "a"⟩, ⟨4, .mutateReadonly "a"⟩]) := by
  have hcm : ∀ sp', (bc.check_mutation name sp').errors =
      bc.errors ++ [⟨sp', .mutateReadonly name⟩] := by
    intro sp'
    simp [Borrow.BorrowChecker.check_mutation, hro]
  have hcm_state : ∀ sp', (bc.check_mutation name sp').readonlyFlags =
      bc.readonlyFlags ∧
      (bc.check_mutation name sp').errors =
        bc.errors ++ [⟨sp', .mutateReadonly name⟩] := by
    intro sp'
    simp [Borrow.BorrowChecker.check_mutation, hro]
  refine ⟨hcm span, ?_, ?_, ?_, ?_, ?_⟩
  · simp [Borrow.BorrowChecker.borrow_mutable, hro]
  · intro v sp
    have step : bc.check_expression
        (.assign (.targetIdent name) (.numLit v sp) span) =
        bc.check_mutation name span := rfl
    rw [step]
    exact hcm span
  · intro fld osp v sp
    have step : bc.check_expression
        (.assign (.targetStaticMember (.ident name osp) fld)
          (.numLit v sp) span) =
        bc.check_mutation name span := rfl
    rw [step]
    exact hcm span
  · intro method osp msp v sp hmut
    have step : bc.check_expression
        (.call (.staticMember (.ident name osp) method msp)
          [.plain (.numLit v sp)] span) =
        (if is_mutating_method method then
          (bc.check_mutation name span).borrow_mutable name span
        else bc.borrow_immutable name span) := rfl
    rw [step, if_pos hmut]
    have h1 := hcm_state span
    simp [Borrow.BorrowChecker.borrow_mutable, h1.1, h1.2, hro]
  · intro rt hrt
    have h1 : Borrow.BorrowChecker.check_function rt
        Borrow.BorrowChecker.new Borrow.readonlyPushExample =
        Borrow.BorrowChecker.check_statements rt
          (Borrow.BorrowChecker.new.declare "a"
            (rt (.typeRef "Readonly" [.typeRef "Array" [.typeRef "i32" []]])))
          [Stmt.exprStmt (.call (.staticMember (.ident "a" 1) "push" 2)
            [.plain (.numLit 1 3)] 4)] := rfl
    rw [h1, hrt]
    rfl

/-- Witness for `readonly_mutation_errors`: a declared
`Readonly<Array<i32>>` variable; a plain assignment reports once, a `push`
call reports twice. -/
theorem readonly_mutation_errors_witness :
    ((Borrow.BorrowChecker.new.declare "a"
        (.readonly (.array .i32))).check_expression
      (.assign (.targetIdent "a") (.numLit 1 5) 6)).errors =
      [⟨6, .mutateReadonly "a"⟩] ∧
    ((Borrow.BorrowChecker.new.declare "a"
        (.readonly (.array .i32))).check_expression
      (.call (.staticMember (.ident "a" 1) "push" 2)
        [.plain (.numLit 1 3)] 4)).errors =
      [⟨4, .mutateReadonly "a"⟩, ⟨4, .mutateReadonly "a"⟩] := by
  have h := readonly_mutation_errors
    (Borrow.BorrowChecker.new.declare "a" (.readonly (.array .i32)))
    "a" 6 (by decide)
  have h' := readonly_mutation_errors
    (Borrow.BorrowChecker.new.declare "a" (.readonly (.array .i32)))
    "a" 4 (by decide)
  exact ⟨h.2.2.1 1 5, h'.2.2.2.2.1 "push" 1 2 1 3 rfl⟩

/-! ### Registry registration and structural equivalence -/

mutual

/-- The modeled derived `PartialEq` is reflexive. -/
theorem beqType_refl : ∀ t : Analysis.LltsType, Analysis.beqType t t = true
  | .number => by simp [Analysis.beqType]
  | .i8 => by simp [Analysis.beqType]
  | .i16 => by simp [Analysis.beqType]
  | .i32 => by simp [Analysis.beqType]
  | .i64 => by simp [Analysis.beqType]
  | .u8 => by simp [Analysis.beqType]
  | .u16 => by simp [Analysis.beqType]
  | .u32 => by simp [Analysis.beqType]
  | .u64 => by simp [Analysis.beqType]
  | .f32 => by simp [Analysis.beqType]
  | .f64 => by simp [Analysis.beqType]
  | .boolean => by simp [Analysis.beqType]
  | .string => by simp [Analysis.beqType]
  | .void => by simp [Analysis.beqType]
  | .never => by simp [Analysis.beqType]
  | .struct n fs tp => by
    simp [Analysis.beqType, beqFields_refl fs]
  | .array e => by simp [Analysis.beqType, beqType_refl e]
  | .tuple es => by simp [Analysis.beqType, beqTypes_refl es]
  | .union n vs => by simp [Analysis.beqType, beqVariants_refl vs]
  | .enum n vs c => by simp [Analysis.beqType]
  | .option i => by simp [Analysis.beqType, beqType_refl i]
  | .result o e => by
    simp [Analysis.beqType, beqType_refl o, beqType_refl e]
  | .function ps r tp => by
    simp [Analysis.beqType, beqParams_refl ps, beqType_refl r]
  | .generic n tp b => by simp [Analysis.beqType, beqType_refl b]
  | .readonly i => by simp [Analysis.beqType, beqType_refl i]
  | .weak i => by simp [Analysis.beqType, beqType_refl i]
  | .alias n i => by simp [Analysis.beqType, beqType_refl i]
  | .ref i => by simp [Analysis.beqType]
  | .unknown => by simp [Analysis.beqType]

theorem beqFields_refl :
    ∀ fs : List (String × Analysis.LltsType × Bool × Bool),
      Analysis.beqFields fs fs = true
  | [] => by simp [Analysis.beqFields]
  | (n, t, r, o) :: rest => by
    simp [Analysis.beqFields, beqType_refl t, beqFields_refl rest]

theorem beqTypes_refl : ∀ ts : List Analysis.LltsType,
    Analysis.beqTypes ts ts = true
  | [] => by simp [Analysis.beqTypes]
  | t :: rest => by
    simp [Analysis.beqTypes, beqType_refl t, beqTypes_refl rest]

theorem beqVariants_refl : ∀ vs : List (Int × Analysis.LltsType),
    Analysis.beqVariants vs vs = true
  | [] => by simp [Analysis.beqVariants]
  | (tag, t) :: rest => by
    simp [Analysis.beqVariants, beqType_refl t, beqVariants_refl rest]

theorem beqParams_refl : ∀ ps : List (String × Analysis.LltsType),
    Analysis.beqParams ps ps = true
  | [] => by simp [Analysis.beqParams]
  | (n, t) :: rest => by
    simp [Analysis.beqParams, beqType_refl t, beqParams_refl rest]

end

/-- Every type has positive comparison depth. -/
theorem sdepth_pos (t : Analysis.LltsType) : 1 ≤ Analysis.sdepth t := by
  cases t <;> simp [Analysis.sdepth]

mutual

/-- `structurally_equal` is reflexive on alias-free types once the fuel
covers the comparison depth. -/
theorem structEq_refl (reg : Analysis.TypeRegistry) :
    ∀ (t : Analysis.LltsType) (fuel : Nat),
      Analysis.aliasFree t = true → Analysis.sdepth t ≤ fuel →
      Analysis.structurally_equal reg fuel t t = true
  | t, 0, _, hd => absurd (le_trans (sdepth_pos t) hd) (by omega)
  | .number, fuel + 1, _, _ => beqType_refl .number
  | .i8, fuel + 1, _, _ => beqType_refl .i8
  | .i16, fuel + 1, _, _ => beqType_refl .i16
  | .i32, fuel + 1, _, _ => beqType_refl .i32
  | .i64, fuel + 1, _, _ => beqType_refl .i64
  | .u8, fuel + 1, _, _ => beqType_refl .u8
  | .u16, fuel + 1, _, _ => beqType_refl .u16
  | .u32, fuel + 1, _, _ => beqType_refl .u32
  | .u64, fuel + 1, _, _ => beqType_refl .u64
  | .f32, fuel + 1, _, _ => beqType_refl .f32
  | .f64, fuel + 1, _, _ => beqType_refl .f64
  | .boolean, fuel + 1, _, _ => beqType_refl .boolean
  | .string, fuel + 1, _, _ => beqType_refl .string
  | .void, fuel + 1, _, _ => beqType_refl .void
  | .never, fuel + 1, _, _ => beqType_refl .never
  | .unknown, fuel + 1, _, _ => beqType_refl .unknown
  | .union n vs, fuel + 1, _, _ => beqType_refl (.union n vs)
  | .enum n vs c, fuel + 1, _, _ => beqType_refl (.enum n vs c)
  | .generic n tp b, fuel + 1, _, _ => beqType_refl (.generic n tp b)
  | .ref i, fuel + 1, _, _ => by
    simp [Analysis.structurally_equal]
  | .alias n i, _ + 1, haf, _ => by
    simp [Analysis.aliasFree] at haf
  | .struct n fs tp, fuel + 1, haf, hd => by
    have hf : Analysis.aliasFreeFields fs = true := by
      simpa [Analysis.aliasFree] using haf
    have hdf : Analysis.sdepthFields fs ≤ fuel := by
      simp [Analysis.sdepth] at hd; omega
    have hall := structEqFields_refl reg fs fuel hf hdf
    have hstep : Analysis.structurally_equal reg (fuel + 1)
        (.struct n fs tp) (.struct n fs tp) =
        (fs.length = fs.length &&
          (fs.zip fs).all fun p =>
            p.1.1 = p.2.1 &&
              Analysis.structurally_equal reg fuel p.1.2.1 p.2.2.1) := rfl
    rw [hstep, hall]
    simp
  | .array e, fuel + 1, haf, hd => by
    have hstep : Analysis.structurally_equal reg (fuel + 1)
        (.array e) (.array e) =
        Analysis.structurally_equal reg fuel e e := rfl
    rw [hstep]
    exact structEq_refl reg e fuel
      (by simpa [Analysis.aliasFree] using haf)
      (by simp [Analysis.sdepth] at hd; omega)
  | .tuple es, fuel + 1, haf, hd => by
    have hf : Analysis.aliasFreeList es = true := by
      simpa [Analysis.aliasFree] using haf
    have hdf : Analysis.sdepthList es ≤ fuel := by
      simp [Analysis.sdepth] at hd; omega
    have hall := structEqList_refl reg es fuel hf hdf
    have hstep : Analysis.structurally_equal reg (fuel + 1)
        (.tuple es) (.tuple es) =
        (es.length = es.length &&
          (es.zip es).all fun p =>
            Analysis.structurally_equal reg fuel p.1 p.2) := rfl
    rw [hstep, hall]
    simp
  | .option i, fuel + 1, haf, hd => by
    have hstep : Analysis.structurally_equal reg (fuel + 1)
        (.option i) (.option i) =
        Analysis.structurally_equal reg fuel i i := rfl
    rw [hstep]
    exact structEq_refl reg i fuel
      (by simpa [Analysis.aliasFree] using haf)
      (by simp [Analysis.sdepth] at hd; omega)
  | .result o e, fuel + 1, haf, hd => by
    have hfo : Analysis.aliasFree o = true := by
      have := haf; simp [Analysis.aliasFree] at this; exact this.1
    have hfe : Analysis.aliasFree e = true := by
      have := haf; simp [Analysis.aliasFree] at this; exact this.2
    have h1 := structEq_refl reg o fuel hfo
      (by simp [Analysis.sdepth, Nat.max_le] at hd; omega)
    have h2 := structEq_refl reg e fuel hfe
      (by simp [Analysis.sdepth, Nat.max_le] at hd; omega)
    have hstep : Analysis.structurally_equal reg (fuel + 1)
        (.result o e) (.result o e) =
        (Analysis.structurally_equal reg fuel o o &&
          Analysis.structurally_equal reg fuel e e) := rfl
    rw [hstep, h1, h2]
    rfl
  | .function ps r tp, fuel + 1, haf, hd => by
    have hfp : Analysis.aliasFreeParams ps = true := by
      have := haf; simp [Analysis.aliasFree] at this; exact this.1
    have hfr : Analysis.aliasFree r = true := by
      have := haf; simp [Analysis.aliasFree] at this; exact this.2
    have hdp : Analysis.sdepthParams ps ≤ fuel := by
      simp [Analysis.sdepth, Nat.max_le] at hd; omega
    have hdr : Analysis.sdepth r ≤ fuel := by
      simp [Analysis.sdepth, Nat.max_le] at hd; omega
    have h1 := structEqParams_refl reg ps fuel hfp hdp
    have h2 := structEq_refl reg r fuel hfr hdr
    have hstep : Analysis.structurally_equal reg (fuel + 1)
        (.function ps r tp) (.function ps r tp) =
        (ps.length = ps.length &&
          ((ps.zip ps).all fun p =>
            Analysis.structurally_equal reg fuel p.1.2 p.2.2) &&
          Analysis.structurally_equal reg fuel r r) := rfl
    rw [hstep, h1, h2]
    simp
  | .readonly i, fuel + 1, haf, hd => by
    have hstep : Analysis.structurally_equal reg (fuel + 1)
        (.readonly i) (.readonly i) =
        Analysis.structurally_equal reg fuel i i := rfl
    rw [hstep]
    exact structEq_refl reg i fuel
      (by simpa [Analysis.aliasFree] using haf)
      (by simp [Analysis.sdepth] at hd; omega)
  | .weak i, fuel + 1, haf, hd => by
    have hstep : Analysis.structurally_equal reg (fuel + 1)
        (.weak i) (.weak i) =
        Analysis.structurally_equal reg fuel i i := rfl
    rw [hstep]
    exact structEq_refl reg i fuel
      (by simpa [Analysis.aliasFree] using haf)
      (by simp [Analysis.sdepth] at hd; omega)

theorem structEqFields_refl (reg : Analysis.TypeRegistry) :
    ∀ (fs : List (String × Analysis.LltsType × Bool × Bool)) (fuel : Nat),
      Analysis.aliasFreeFields fs = true →
      Analysis.sdepthFields fs ≤ fuel →
      ((fs.zip fs).all fun p =>
        p.1.1 = p.2.1 &&
          Analysis.structurally_equal reg fuel p.1.2.1 p.2.2.1) = true
  | [], _, _, _ => rfl
  | f :: rest, fuel, haf, hd => by
    have h1 : Analysis.aliasFree f.2.1 = true := by
      have := haf; simp [Analysis.aliasFreeFields] at this; exact this.1
    have h2 : Analysis.aliasFreeFields rest = true := by
      have := haf; simp [Analysis.aliasFreeFields] at this; exact this.2
    have hd1 : Analysis.sdepth f.2.1 ≤ fuel := by
      simp [Analysis.sdepthFields, Nat.max_le] at hd; omega
    have hd2 : Analysis.sdepthFields rest ≤ fuel := by
      simp [Analysis.sdepthFields, Nat.max_le] at hd; omega
    have ih := structEqFields_refl reg rest fuel h2 hd2
    have hs := structEq_refl reg f.2.1 fuel h1 hd1
    show (((f, f) :: rest.zip rest).all fun p =>
        p.1.1 = p.2.1 &&
          Analysis.structurally_equal reg fuel p.1.2.1 p.2.2.1) = true
    simp [List.all_cons, hs, ih]

theorem structEqList_refl (reg : Analysis.TypeRegistry) :
    ∀ (ts : List Analysis.LltsType) (fuel : Nat),
      Analysis.aliasFreeList ts = true →
      Analysis.sdepthList ts ≤ fuel →
      ((ts.zip ts).all fun p =>
        Analysis.structurally_equal reg fuel p.1 p.2) = true
  | [], _, _, _ => rfl
  | t :: rest, fuel, haf, hd => by
    have h1 : Analysis.aliasFree t = true := by
      have := haf; simp [Analysis.aliasFreeList] at this; exact this.1
    have h2 : Analysis.aliasFreeList rest = true := by
      have := haf; simp [Analysis.aliasFreeList] at this; exact this.2
    have hd1 : Analysis.sdepth t ≤ fuel := by
      simp [Analysis.sdepthList, Nat.max_le] at hd; omega
    have hd2 : Analysis.sdepthList rest ≤ fuel := by
      simp [Analysis.sdepthList, Nat.max_le] at hd; omega
    have ih := structEqList_refl reg rest fuel h2 hd2
    have hs := structEq_refl reg t fuel h1 hd1
    show (((t, t) :: rest.zip rest).all fun p =>
        Analysis.structurally_equal reg fuel p.1 p.2) = true
    simp [List.all_cons, hs, ih]

theorem structEqParams_refl (reg : Analysis.TypeRegistry) :
    ∀ (ps : List (String × Analysis.LltsType)) (fuel : Nat),
      Analysis.aliasFreeParams ps = true →
      Analysis.sdepthParams ps ≤ fuel →
      ((ps.zip ps).all fun p =>
        Analysis.structurally_equal reg fuel p.1.2 p.2.2) = true
  | [], _, _, _ => rfl
  | p :: rest, fuel, haf, hd => by
    have h1 : Analysis.aliasFree p.2 = true := by
      have := haf; simp [Analysis.aliasFreeParams] at this; exact this.1
    have h2 : Analysis.aliasFreeParams rest = true := by
      have := haf; simp [Analysis.aliasFreeParams] at this; exact this.2
    have hd1 : Analysis.sdepth p.2 ≤ fuel := by
      simp [Analysis.sdepthParams, Nat.max_le] at hd; omega
    have hd2 : Analysis.sdepthParams rest ≤ fuel := by
      simp [Analysis.sdepthParams, Nat.max_le] at hd; omega
    have ih := structEqParams_refl reg rest fuel h2 hd2
    have hs := structEq_refl reg p.2 fuel h1 hd1
    show (((p, p) :: rest.zip rest).all fun q =>
        Analysis.structurally_equal reg fuel q.1.2 q.2.2) = true
    simp [List.all_cons, hs, ih]

end

/-- C2 (counterexample): after registering `N` as `I32` and then calling
`register(N, String)`, `get(N)` still returns `I32`, which is not
structurally equivalent to `String`. -/
theorem register_existing_cex :
    Analysis.regAfterRereg.get "N" = some Analysis.LltsType.i32 ∧
    ¬ Analysis.StructEquiv Analysis.regAfterRereg
      Analysis.LltsType.i32 Analysis.LltsType.string := by
  refine ⟨rfl, ?_⟩
  rintro ⟨fuel, h⟩
  cases fuel with
  | zero => exact Bool.noConfusion h
  | succ n =>
    have hs : Analysis.structurally_equal Analysis.regAfterRereg (n + 1)
        Analysis.LltsType.i32 Analysis.LltsType.string =
        Analysis.beqType Analysis.LltsType.i32 Analysis.LltsType.string := rfl
    have hb : Analysis.beqType Analysis.LltsType.i32
        Analysis.LltsType.string = false := by
      simp [Analysis.beqType]
    rw [hs, hb] at h
    exact Bool.noConfusion h

/-- C2 (amended): registering a fresh name `N` with type `T` makes
`get(N)` return `T` itself (hence a type structurally equivalent to `T`
whenever `T` is alias-free); registering an already-registered name
returns the original id and leaves the registry — in particular the type
stored under `N` — unchanged. -/
theorem register_get_spec (reg : Analysis.TypeRegistry) (N : String)
    (T : Analysis.LltsType) :
    (reg.types.lookup N = none →
      ((reg.register N T).2.get N = some T ∧
       (Analysis.aliasFree T = true →
         Analysis.StructEquiv (reg.register N T).2 T T))) ∧
    (∀ p, reg.types.lookup N = some p →
      reg.register N T = (p.1, reg)) := by
  constructor
  · intro hnone
    have hreg : (reg.register N T).2.types = (N, reg.next_id, T) :: reg.types := by
      simp [Analysis.TypeRegistry.register, hnone]
    constructor
    · simp [Analysis.TypeRegistry.get, hreg, lookup_cons_self]
    · intro haf
      exact ⟨Analysis.sdepth T,
        structEq_refl (reg.register N T).2 T (Analysis.sdepth T) haf
          (Nat.le_refl _)⟩
  · intro p hp
    cases p with
    | mk id ty => simp [Analysis.TypeRegistry.register, hp]

/-- Witness for `register_get_spec`: a fresh registration of a point
struct, then an ignored re-registration. -/
theorem register_get_spec_witness :
    ((Analysis.TypeRegistry.new.register "P"
        (.struct "P" [("x", .i32, false, false)] [])).2).get "P" =
      some (.struct "P" [("x", .i32, false, false)] []) ∧
    Analysis.StructEquiv
      (Analysis.TypeRegistry.new.register "P"
        (.struct "P" [("x", .i32, false, false)] [])).2
      (.struct "P" [("x", .i32, false, false)] [])
      (.struct "P" [("x", .i32, false, false)] []) ∧
    Analysis.regAfterI32.register "N" .string = (0, Analysis.regAfterI32) := by
  have h := register_get_spec Analysis.TypeRegistry.new "P"
    (.struct "P" [("x", .i32, false, false)] [])
  have h1 := h.1 rfl
  have h2 := register_get_spec Analysis.regAfterI32 "N"
    Analysis.LltsType.string
  exact ⟨h1.1, h1.2 rfl, h2.2 (0, Analysis.LltsType.i32) rfl⟩

/-! ### Discriminated-union detection -/

/-- The member loop succeeds exactly on member lists that are known struct
references, returning the list of struct names. -/
theorem collect_variant_names_iff (sd : Unions.StructDefs) :
    ∀ (members : List TSTy) (sns : List String),
      Unions.collect_variant_names sd members = some sns ↔
        List.Forall₂ (Unions.KnownStructRef sd) members sns := by
  intro members
  induction members with
  | nil =>
    intro sns
    constructor
    · intro h
      cases h
      exact List.Forall₂.nil
    · intro h
      cases h
      rfl
  | cons t rest ih =>
    intro sns
    constructor
    · intro h
      cases t with
      | typeRef name args =>
        by_cases hk : (sd.lookup name).isSome = true
        · simp only [Unions.collect_variant_names, hk, if_true] at h
          rcases hrest : Unions.collect_variant_names sd rest with _ | sns'
          · rw [hrest] at h; simp at h
          · rw [hrest] at h
            simp at h
            subst h
            exact List.Forall₂.cons ⟨⟨args, rfl⟩, hk⟩ ((ih sns').mp hrest)
        · simp only [Unions.collect_variant_names] at h
          rw [if_neg hk] at h
          cases h
      | numberKw => cases h
      | booleanKw => cases h
      | stringKw => cases h
      | voidKw => cases h
      | neverKw => cases h
      | nullKw => cases h
      | undefinedKw => cases h
      | arrayTy e => cases h
      | funcTy p r => cases h
      | unionTy ts => cases h
      | parenTy i => cases h
      | litStr s => cases h
      | litOther => cases h
      | otherTy => cases h
    · intro h
      cases h with
      | cons hhead htail =>
        obtain ⟨⟨args, rfl⟩, hk⟩ := hhead
        simp only [Unions.collect_variant_names, hk, if_true]
        rw [(ih _).mpr htail]
        rfl

/-- One unfolding step of the accumulation loop. -/
theorem disc_values_loop_cons (slf : Unions.StringLitFields)
    (field sn : String) (rest seen : List String) :
    Unions.disc_values_loop slf field (sn :: rest) seen =
      match slf.lookup (sn, field) with
      | none => none
      | some v =>
        if seen.contains v then none
        else Unions.disc_values_loop slf field rest (v :: seen) := rfl

/-- The length of the accumulated value set. -/
theorem disc_values_loop_length (slf : Unions.StringLitFields)
    (field : String) :
    ∀ (sns seen out : List String),
      Unions.disc_values_loop slf field sns seen = some out →
      out.length = sns.length + seen.length := by
  intro sns
  induction sns with
  | nil =>
    intro seen out h
    cases h
    simp
  | cons sn rest ih =>
    intro seen out h
    rcases hlk : slf.lookup (sn, field) with _ | v
    · have hz : Unions.disc_values_loop slf field (sn :: rest) seen = none := by
        rw [disc_values_loop_cons, hlk]
      rw [hz] at h
      cases h
    · by_cases hc : seen.contains v = true
      · have hz : Unions.disc_values_loop slf field (sn :: rest) seen = none := by
          rw [disc_values_loop_cons, hlk]
          exact if_pos hc
        rw [hz] at h
        cases h
      · have hstep : Unions.disc_values_loop slf field (sn :: rest) seen =
            Unions.disc_values_loop slf field rest (v :: seen) := by
          rw [disc_values_loop_cons, hlk]
          exact if_neg hc
        rw [hstep] at h
        have := ih (v :: seen) out h
        simp at this ⊢
        omega

/-- The loop succeeds exactly when every variant has the field and the
values are fresh and pairwise distinct. -/
theorem disc_values_loop_iff (slf : Unions.StringLitFields)
    (field : String) :
    ∀ (sns seen : List String),
      (Unions.disc_values_loop slf field sns seen).isSome = true ↔
        ((∀ sn ∈ sns, (slf.lookup (sn, field)).isSome = true) ∧
         (sns.map fun sn => (slf.lookup (sn, field)).getD "").Nodup ∧
         (∀ v ∈ sns.map fun sn => (slf.lookup (sn, field)).getD "",
            v ∉ seen)) := by
  intro sns
  induction sns with
  | nil =>
    intro seen
    simp [Unions.disc_values_loop]
  | cons sn rest ih =>
    intro seen
    rcases hlk : slf.lookup (sn, field) with _ | v
    · have hz : Unions.disc_values_loop slf field (sn :: rest) seen = none := by
        rw [disc_values_loop_cons, hlk]
      rw [hz]
      simp only [Option.isSome_none, Bool.false_eq_true, false_iff]
      rintro ⟨hall, _, _⟩
      have := hall sn (List.mem_cons_self sn rest)
      rw [hlk] at this
      cases this
    · by_cases hc : seen.contains v = true
      · have hz : Unions.disc_values_loop slf field (sn :: rest) seen = none := by
          rw [disc_values_loop_cons, hlk]
          exact if_pos hc
        rw [hz]
        simp only [Option.isSome_none, Bool.false_eq_true, false_iff]
        rintro ⟨_, _, hfresh⟩
        exact hfresh ((slf.lookup (sn, field)).getD "")
          (List.mem_map_of_mem _ (List.mem_cons_self sn rest))
          (by rw [hlk]; simpa using hc)
      · have hstep : Unions.disc_values_loop slf field (sn :: rest) seen =
            Unions.disc_values_loop slf field rest (v :: seen) := by
          rw [disc_values_loop_cons, hlk]
          exact if_neg hc
        rw [hstep, ih (v :: seen)]
        constructor
        · rintro ⟨hall, hnd, hfresh⟩
          refine ⟨?_, ?_, ?_⟩
          · intro x hx
            rcases List.mem_cons.mp hx with rfl | hx
            · simp [hlk]
            · exact hall x hx
          · simp only [List.map_cons, hlk, List.nodup_cons, Option.getD_some]
            exact ⟨fun hmem => hfresh v hmem (List.mem_cons_self v seen), hnd⟩
          · intro w hw hwseen
            simp only [List.map_cons, hlk, Option.getD_some,
              List.mem_cons] at hw
            rcases hw with rfl | hw
            · exact absurd hwseen (by simpa using hc)
            · exact hfresh w hw (List.mem_cons_of_mem v hwseen)
        · rintro ⟨hall, hnd, hfresh⟩
          simp only [List.map_cons, hlk, Option.getD_some,
            List.nodup_cons] at hnd
          refine ⟨fun x hx => hall x (List.mem_cons_of_mem sn hx),
            hnd.2, ?_⟩
          intro w hw hwvs
          rcases List.mem_cons.mp hwvs with rfl | hwseen
          · exact hnd.1 hw
          · exact hfresh w (by
              simp only [List.map_cons, hlk, Option.getD_some]
              exact List.mem_cons_of_mem _ hw) hwseen

/-- The discriminant check is the declarative condition. -/
theorem check_disc_field_iff (slf : Unions.StringLitFields)
    (sns : List String) (field : String) :
    Unions.check_disc_field slf sns field = true ↔
      Unions.DiscFieldOk slf sns field := by
  constructor
  · intro h
    simp only [Unions.check_disc_field] at h
    rcases hloop : Unions.disc_values_loop slf field sns [] with _ | out
    · rw [hloop] at h; cases h
    · have := (disc_values_loop_iff slf field sns []).mp (by rw [hloop]; rfl)
      exact ⟨this.1, this.2.1⟩
  · intro ⟨hall, hnd⟩
    have hsome := (disc_values_loop_iff slf field sns []).mpr
      ⟨hall, hnd, by intro v _ hv; simp at hv⟩
    rcases hloop : Unions.disc_values_loop slf field sns [] with _ | out
    · rw [hloop] at hsome; cases hsome
    · have hlen := disc_values_loop_length slf field sns [] out hloop
      simp only [Unions.check_disc_field, hloop]
      simp [hlen]

/-- C3 (counterexample): the original claim fails in two independent
ways.  First, two record types sharing two string-literal fields (`kind`
and `sort`), each with pairwise-distinct values: the claim's condition
(iii) — exactly one such shared field — fails, yet detection succeeds
(using the first candidate field).  Second, the payload clause: when the
second variant is named like the first variant's payload struct (`U_A`),
the mid-loop `struct_defs` insertion clobbers the entry the second
payload is read from, so that payload is `[("x", i32)]` rather than the
variant's own declared fields minus the discriminant (`[("y", i32)]`). -/
theorem detect_two_candidates_cex :
    ((Unions.detect_discriminated_union Unions.twoFieldStructDefs
      Unions.twoFieldSlf "U"
      (.unionTy [.typeRef "A" [], .typeRef "B" []])).isSome = true ∧
    Unions.DiscFieldOk Unions.twoFieldSlf ["A", "B"] "kind" ∧
    Unions.DiscFieldOk Unions.twoFieldSlf ["A", "B"] "sort" ∧
    ("kind" : String) ≠ "sort") ∧
    ((Unions.detect_discriminated_union Unions.clobberStructDefs
        Unions.clobberSlf "U"
        (.unionTy [.typeRef "A" [], .typeRef "U_A" []])).map
          (fun r => r.2.1) =
      some [("U_A", [("x", Codegen.LltsType.i32)]),
            ("U_U_A", [("x", Codegen.LltsType.i32)])] ∧
    (((Unions.clobberStructDefs.lookup "U_A").getD []).filter
        fun f => f.1 ≠ "kind") = [("y", Codegen.LltsType.i32)]) := by
  refine ⟨⟨rfl, ?_, ?_, by decide⟩, rfl, rfl⟩
  · exact (check_disc_field_iff Unions.twoFieldSlf ["A", "B"] "kind").mp rfl
  · exact (check_disc_field_iff Unions.twoFieldSlf ["A", "B"] "sort").mp rfl

/-- Mapping the reshuffling function over a zip of a list with its own
image. -/
theorem zip_map_self_eq {α β γ : Type} (h : α → β × γ) :
    ∀ l : List α,
      List.map (fun p => (p.2.1, p.1, p.2.2)) (l.zip (l.map h)) =
        l.map fun a => ((h a).1, a, (h a).2)
  | [] => rfl
  | a :: l => by simp [zip_map_self_eq h l]

/-- Prepending a differently keyed entry does not change a lookup. -/
theorem lookup_cons_ne {β : Type} {k a : String} (v : β)
    (l : List (String × β)) (h : a ≠ k) :
    List.lookup a ((k, v) :: l) = List.lookup a l := by
  have hbeq : (a == k) = false := beq_eq_false_iff_ne.mpr h
  simp [List.lookup, hbeq]

/-- One unfolding step of the variants loop. -/
theorem variants_loop_cons (slf : Unions.StringLitFields)
    (un field : String) (sd : Unions.StructDefs) (sn : String)
    (rest : List String) :
    Unions.variants_loop slf un field sd (sn :: rest) =
      ((Unions.variants_loop slf un field
          ((un ++ "_" ++ sn,
            (Unions.variant_payload sd slf un field sn).2.2) :: sd) rest).1,
       Unions.variant_payload sd slf un field sn ::
         (Unions.variants_loop slf un field
           ((un ++ "_" ++ sn,
             (Unions.variant_payload sd slf un field sn).2.2) :: sd)
           rest).2) := rfl

/-- When no variant is named like a payload struct, the mid-loop
insertions are invisible to the loop's lookups and the payloads coincide
with the reads from the initial `struct_defs`. -/
theorem variants_loop_eq_map (slf : Unions.StringLitFields)
    (un field : String) (sd₀ : Unions.StructDefs) :
    ∀ (sns : List String) (sdAcc : Unions.StructDefs),
      (∀ sn ∈ sns, List.lookup sn sdAcc = List.lookup sn sd₀) →
      (∀ sn' ∈ sns, ∀ sn ∈ sns, sn' ≠ un ++ "_" ++ sn) →
      (Unions.variants_loop slf un field sdAcc sns).2 =
        sns.map (Unions.variant_payload sd₀ slf un field) := by
  intro sns
  induction sns with
  | nil => intro sdAcc _ _; rfl
  | cons sn rest ih =>
    intro sdAcc hlk hnc
    have hp : Unions.variant_payload sdAcc slf un field sn =
        Unions.variant_payload sd₀ slf un field sn := by
      unfold Unions.variant_payload
      rw [hlk sn (List.mem_cons_self sn rest)]
    have ht : (Unions.variants_loop slf un field
        ((un ++ "_" ++ sn,
          (Unions.variant_payload sdAcc slf un field sn).2.2) :: sdAcc)
        rest).2 = rest.map (Unions.variant_payload sd₀ slf un field) := by
      refine ih _ ?_ ?_
      · intro x hx
        rw [lookup_cons_ne _ _
          (hnc x (List.mem_cons_of_mem sn hx) sn (List.mem_cons_self sn rest))]
        exact hlk x (List.mem_cons_of_mem sn hx)
      · intro a ha b hb
        exact hnc a (List.mem_cons_of_mem sn ha) b (List.mem_cons_of_mem sn hb)
    rw [variants_loop_cons]
    show Unions.variant_payload sdAcc slf un field sn :: _ = _
    rw [ht, List.map_cons, hp]

/-- One unfolding step of discriminated-union detection on a union
annotation. -/
theorem detect_du_step (sd : Unions.StructDefs)
    (slf : Unions.StringLitFields) (un : String) (members : List TSTy) :
    Unions.detect_discriminated_union sd slf un (.unionTy members) =
      match Unions.collect_variant_names sd members with
      | none => none
      | some sns =>
        if sns.length < 2 then none
        else
          match sns with
          | [] => none
          | first :: _ =>
            match (Unions.first_fields slf first).find?
                (Unions.check_disc_field slf sns) with
            | none => none
            | some field =>
              let payloads := (Unions.variants_loop slf un field sd sns).2
              let variants := payloads.map fun p =>
                (p.1, Codegen.LltsType.struct p.2.1 p.2.2)
              let named := sns.zip variants
              let enum_variants := (payloads.enum.map fun (tag, p) =>
                ("v" ++ toString tag, Codegen.LltsType.struct p.2.1 p.2.2))
              let full_union_type := Codegen.LltsType.union un enum_variants
              some
                (⟨field,
                  named.map fun p => (p.2.1, p.1, p.2.2),
                  full_union_type⟩,
                 payloads.map fun p => (p.2.1, p.2.2),
                 (un, enum_variants)) := rfl

/-- C3 (amended): a type alias union is detected as a discriminated union
iff every member is a reference to a known record type, there are at least
two members, and at least one candidate field of the first variant is
declared in every variant as a string literal with pairwise-distinct
values; the discriminant is the first such candidate (not necessarily
unique).  The payload structs are computed by a loop that inserts each
payload into the running record-definition map before the next variant is
read; whenever no variant is named like a payload struct (`{union}_{v}`),
each variant's payload struct consists of all of its own fields except the
discriminant field. -/
theorem detect_du_spec (sd : Unions.StructDefs)
    (slf : Unions.StringLitFields) (un : String) (members : List TSTy) :
    ((Unions.detect_discriminated_union sd slf un
        (.unionTy members)).isSome = true ↔
      ∃ sns, List.Forall₂ (Unions.KnownStructRef sd) members sns ∧
        2 ≤ sns.length ∧
        ∃ field ∈ Unions.first_fields slf (sns.headD ""),
          Unions.DiscFieldOk slf sns field) ∧
    (∀ d structs enumDecl,
      Unions.detect_discriminated_union sd slf un (.unionTy members) =
        some (d, structs, enumDecl) →
      ∃ sns, List.Forall₂ (Unions.KnownStructRef sd) members sns ∧
        (Unions.first_fields slf (sns.headD "")).find?
          (Unions.check_disc_field slf sns) = some d.discriminant_field ∧
        ((∀ sn' ∈ sns, ∀ sn ∈ sns, sn' ≠ un ++ "_" ++ sn) →
          structs = sns.map (fun sn =>
            (un ++ "_" ++ sn,
             ((sd.lookup sn).getD []).filter
               fun f => f.1 ≠ d.discriminant_field)) ∧
          d.variants = sns.map (fun sn =>
            ((slf.lookup (sn, d.discriminant_field)).getD "", sn,
             Codegen.LltsType.struct (un ++ "_" ++ sn)
               (((sd.lookup sn).getD []).filter
                 fun f => f.1 ≠ d.discriminant_field))))) := by
  constructor
  · constructor
    · intro hsome
      rw [detect_du_step] at hsome
      rcases hcol : Unions.collect_variant_names sd members with _ | sns
      · rw [hcol] at hsome; simp at hsome
      · rw [hcol] at hsome
        simp only at hsome
        by_cases hlen : sns.length < 2
        · rw [if_pos hlen] at hsome; simp at hsome
        · rw [if_neg hlen] at hsome
          cases sns with
          | nil => simp at hlen
          | cons first rest =>
            simp only at hsome
            rcases hfind : (Unions.first_fields slf first).find?
                (Unions.check_disc_field slf (first :: rest)) with _ | field
            · rw [hfind] at hsome; simp at hsome
            · refine ⟨first :: rest,
                (collect_variant_names_iff sd members _).mp hcol,
                by omega, field, ?_, ?_⟩
              · simpa using List.mem_of_find?_eq_some hfind
              · exact (check_disc_field_iff slf (first :: rest) field).mp
                  (List.find?_some hfind)
    · rintro ⟨sns, hfa, hlen, field, hmem, hok⟩
      have hcol := (collect_variant_names_iff sd members sns).mpr hfa
      rw [detect_du_step, hcol]
      simp only
      rw [if_neg (by omega)]
      cases sns with
      | nil => simp at hlen
      | cons first rest =>
        simp only
        have hfind : ((Unions.first_fields slf first).find?
            (Unions.check_disc_field slf (first :: rest))).isSome = true := by
          rw [List.find?_isSome]
          exact ⟨field, by simpa using hmem,
            (check_disc_field_iff slf (first :: rest) field).mpr hok⟩
        rcases hfd : (Unions.first_fields slf first).find?
            (Unions.check_disc_field slf (first :: rest)) with _ | f
        · rw [hfd] at hfind; cases hfind
        · rfl
  · intro d structs enumDecl hdet
    rw [detect_du_step] at hdet
    rcases hcol : Unions.collect_variant_names sd members with _ | sns
    · rw [hcol] at hdet; cases hdet
    · rw [hcol] at hdet
      simp only at hdet
      by_cases hlen : sns.length < 2
      · rw [if_pos hlen] at hdet; cases hdet
      · rw [if_neg hlen] at hdet
        cases sns with
        | nil => simp at hlen
        | cons first rest =>
          simp only at hdet
          rcases hfind : (Unions.first_fields slf first).find?
              (Unions.check_disc_field slf (first :: rest)) with _ | field
          · rw [hfind] at hdet; cases hdet
          · rw [hfind] at hdet
            simp only [Option.some_inj] at hdet
            obtain ⟨hd, hstructs, henum⟩ := Prod.mk.injEq .. ▸ (by
              exact ⟨congrArg (fun p => p.1) hdet.symm,
                congrArg (fun p => p.2.1) hdet.symm,
                congrArg (fun p => p.2.2) hdet.symm⟩ :
              (d = _) ∧ (structs = _) ∧ (enumDecl = _))
            refine ⟨first :: rest,
              (collect_variant_names_iff sd members _).mp hcol, ?_, ?_⟩
            · rw [hd]
              simpa using hfind
            · intro hnc
              have hploop : (Unions.variants_loop slf un field sd
                  (first :: rest)).2 = (first :: rest).map
                    (Unions.variant_payload sd slf un field) :=
                variants_loop_eq_map slf un field sd (first :: rest) sd
                  (fun _ _ => rfl) hnc
              constructor
              · rw [hstructs, hd]
                rw [hploop]
                simp [Unions.variant_payload]
              · rw [hd]
                simp only
                rw [hploop]
                simp only [List.map_map]
                rw [zip_map_self_eq]
                simp [Unions.variant_payload, Function.comp]

theorem detect_du_spec_witness :
    (∃ sns, List.Forall₂ (Unions.KnownStructRef Unions.twoFieldStructDefs)
        [TSTy.typeRef "A" [], TSTy.typeRef "B" []] sns ∧
      2 ≤ sns.length ∧
      ∃ field ∈ Unions.first_fields Unions.twoFieldSlf (sns.headD ""),
        Unions.DiscFieldOk Unions.twoFieldSlf sns field) ∧
    [("U_A", [("sort", Codegen.LltsType.f64), ("x", Codegen.LltsType.i32)]),
     ("U_B", [("sort", Codegen.LltsType.f64), ("y", Codegen.LltsType.i32)])] =
      (["A", "B"] : List String).map fun sn =>
        ("U" ++ "_" ++ sn,
         ((Unions.twoFieldStructDefs.lookup sn).getD []).filter
           fun f => f.1 ≠ "kind") := by
  constructor
  · exact (detect_du_spec Unions.twoFieldStructDefs Unions.twoFieldSlf "U"
      [TSTy.typeRef "A" [], TSTy.typeRef "B" []]).1.mp rfl
  · obtain ⟨sns, hfa, hfind, hpay⟩ :=
      (detect_du_spec Unions.twoFieldStructDefs Unions.twoFieldSlf "U"
        [TSTy.typeRef "A" [], TSTy.typeRef "B" []]).2 _ _ _ rfl
    rcases hfa with _ | ⟨hA, hfa⟩
    rcases hfa with _ | ⟨hB, hnil⟩
    cases hnil
    obtain ⟨⟨argsA, heqA⟩, _⟩ := hA
    obtain ⟨⟨argsB, heqB⟩, _⟩ := hB
    injection heqA with hA1 hA2
    injection heqB with hB1 hB2
    subst hA1
    subst hB1
    exact (hpay (by decide)).1

/-- Unfolding `walk` at positive fuel. -/
theorem walk_succ (g : List (Nat × List Nat)) (fuel file : Nat)
    (s : List Nat × List Nat) :
    ModuleGraph.walk g (fuel + 1) file s =
      if file ∈ s.1 then some s
      else
        match ModuleGraph.walkList (ModuleGraph.walk g fuel) (ModuleGraph.imports g file) (file :: s.1, s.2) with
        | some s' => some (s'.1, s'.2 ++ [file])
        | none => none := rfl

/-- `Before` is stable under appending on the right. -/
theorem before_append_left {l l' : List Nat} {a b : Nat}
    (h : ModuleGraph.Before l a b) : ModuleGraph.Before (l ++ l') a b := by
  obtain ⟨i, j, hij, ha, hb⟩ := h
  have hj : j < l.length := by
    rcases List.get?_eq_some.mp hb with ⟨h, _⟩
    exact h
  have hi : i < l.length := lt_trans hij hj
  exact ⟨i, j, hij, by rw [List.get?_append hi]; exact ha,
    by rw [List.get?_append hj]; exact hb⟩

/-- Every member of `l` comes before a freshly appended last element. -/
theorem before_mem_snoc {l : List Nat} {a b : Nat}
    (h : a ∈ l) : ModuleGraph.Before (l ++ [b]) a b := by
  obtain ⟨i, ha⟩ := List.mem_iff_get?.mp h
  have hi : i < l.length := by
    rcases List.get?_eq_some.mp ha with ⟨h, _⟩
    exact h
  exact ⟨i, l.length, hi, by rw [List.get?_append hi]; exact ha,
    List.get?_concat_length l b⟩

/-- The `walkList` state-change bundle, given the `walk` bundle at the
same fuel. -/
theorem walkList_delta_of (g : List (Nat × List Nat)) (fuel : Nat)
    (hw : ∀ f V O V' O', ModuleGraph.walk g fuel f (V, O) = some (V', O') →
      ModuleGraph.DeltaSpec g f V O V' O') :
    ∀ l V O V' O',
      ModuleGraph.walkList (ModuleGraph.walk g fuel) l (V, O) = some (V', O') →
      ModuleGraph.DeltaSpecList g l V O V' O' := by
  intro l
  induction l with
  | nil =>
    intro V O V' O' h
    injection h with h'
    injection h' with h1 h2
    subst h1; subst h2
    exact ⟨[], by simp, by simp, List.nodup_nil, by simp, by simp, by simp⟩
  | cons i rest ih =>
    intro V O V' O' h
    rcases hw1 : ModuleGraph.walk g fuel i (V, O) with _ | s₁
    · rw [ModuleGraph.walkList, hw1] at h
      cases h
    · obtain ⟨V₁, O₁⟩ := s₁
      rw [ModuleGraph.walkList, hw1] at h
      obtain ⟨Δ₁, hO₁, hV₁, hnd₁, hfr₁, hr₁, hiV₁⟩ := hw _ _ _ _ _ hw1
      obtain ⟨Δ₂, hO₂, hV₂, hnd₂, hfr₂, hr₂, hlV₂⟩ := ih _ _ _ _ h
      refine ⟨Δ₁ ++ Δ₂, ?_, ?_, ?_, ?_, ?_, ?_⟩
      · rw [hO₂, hO₁, List.append_assoc]
      · intro x
        rw [hV₂, hV₁, List.mem_append]
        tauto
      · refine List.Nodup.append hnd₁ hnd₂ ?_
        intro x hx₁ hx₂
        have := hfr₂ x hx₂
        rw [hV₁] at this
        exact this (Or.inl hx₁)
      · intro x hx
        rcases List.mem_append.mp hx with hx | hx
        · exact hfr₁ x hx
        · have := hfr₂ x hx
          rw [hV₁] at this
          exact fun hV => this (Or.inr hV)
      · intro u hu
        rcases List.mem_append.mp hu with hu | hu
        · exact ⟨i, List.mem_cons_self i rest, hr₁ u hu⟩
        · obtain ⟨j, hj, hju⟩ := hr₂ u hu
          exact ⟨j, List.mem_cons_of_mem i hj, hju⟩
      · intro j hj
        rcases List.mem_cons.mp hj with rfl | hj
        · rw [hV₂]
          right
          exact hiV₁
        · exact hlV₂ j hj

/-- The `walk` state-change bundle: the order grows by a duplicate-free
block of previously unvisited files reachable from the walked file. -/
theorem walk_delta (g : List (Nat × List Nat)) :
    ∀ fuel f V O V' O', ModuleGraph.walk g fuel f (V, O) = some (V', O') →
      ModuleGraph.DeltaSpec g f V O V' O' := by
  intro fuel
  induction fuel with
  | zero =>
    intro f V O V' O' h
    exact Option.noConfusion h
  | succ n ih =>
    intro f V O V' O' h
    rw [walk_succ] at h
    simp only at h
    by_cases hf : f ∈ V
    · rw [if_pos hf] at h
      injection h with h'
      injection h' with h1 h2
      subst h1; subst h2
      exact ⟨[], by simp, by simp, List.nodup_nil, by simp, by simp, hf⟩
    · rw [if_neg hf] at h
      rcases hwl : ModuleGraph.walkList (ModuleGraph.walk g n) (ModuleGraph.imports g f) (f :: V, O) with _ | s'
      · rw [hwl] at h
        cases h
      · obtain ⟨V₁, O₁⟩ := s'
        rw [hwl] at h
        simp only at h
        injection h with h'
        injection h' with h1 h2
        subst h1; subst h2
        obtain ⟨Δ, hO, hV, hnd, hfr, hr, hfV⟩ :=
          walkList_delta_of g n ih _ _ _ _ _ hwl
        refine ⟨Δ ++ [f], ?_, ?_, ?_, ?_, ?_, ?_⟩
        · rw [hO, List.append_assoc]
        · intro x
          rw [hV]
          simp only [List.mem_append, List.mem_cons,
            List.mem_singleton]
          tauto
        · refine List.Nodup.append hnd (List.nodup_singleton f) ?_
          intro x hx₁ hx₂
          rw [List.mem_singleton] at hx₂
          subst hx₂
          exact (hfr x hx₁) (List.mem_cons_self x V)
        · intro x hx
          rcases List.mem_append.mp hx with hx | hx
          · intro hxV
            exact (hfr x hx) (List.mem_cons_of_mem f hxV)
          · rw [List.mem_singleton] at hx
            subst hx
            exact hf
        · intro u hu
          rcases List.mem_append.mp hu with hu | hu
          · obtain ⟨i, hi, hiu⟩ := hr u hu
            right
            rcases hiu with rfl | hiu
            · exact Relation.TransGen.single hi
            · exact Relation.TransGen.head hi hiu
          · rw [List.mem_singleton] at hu
            exact Or.inl hu
        · exact (hV f).mpr (Or.inr (List.mem_cons_self f V))

/-- The `walkList` state-change bundle. -/
theorem walkList_delta (g : List (Nat × List Nat)) (fuel : Nat) :
    ∀ l V O V' O',
      ModuleGraph.walkList (ModuleGraph.walk g fuel) l (V, O) = some (V', O') →
      ModuleGraph.DeltaSpecList g l V O V' O' :=
  walkList_delta_of g fuel (walk_delta g fuel)

/-- Order-closedness is preserved by `walkList` on an acyclic graph, given
preservation by `walk` at the same fuel; gray files (visited but not yet
ordered) reach every import in the list. -/
theorem walkList_closed_of (g : List (Nat × List Nat)) (fuel : Nat)
    (hac : ModuleGraph.Acyclic g)
    (hwB : ∀ f V O V' O', (∀ x ∈ O, x ∈ V) →
      (∀ p ∈ V, p ∉ O → Relation.TransGen (ModuleGraph.dimp g) p f) →
      ModuleGraph.OrderClosed g O → ModuleGraph.walk g fuel f (V, O) = some (V', O') →
      (∀ x ∈ O', x ∈ V') ∧ ModuleGraph.OrderClosed g O') :
    ∀ l V O V' O', (∀ x ∈ O, x ∈ V) →
      (∀ p ∈ V, p ∉ O → ∀ i ∈ l, Relation.TransGen (ModuleGraph.dimp g) p i) →
      ModuleGraph.OrderClosed g O →
      ModuleGraph.walkList (ModuleGraph.walk g fuel) l (V, O) = some (V', O') →
      (∀ x ∈ O', x ∈ V') ∧ ModuleGraph.OrderClosed g O' := by
  intro l
  induction l with
  | nil =>
    intro V O V' O' hOV _ hcl h
    injection h with h'
    injection h' with h1 h2
    subst h1; subst h2
    exact ⟨hOV, hcl⟩
  | cons i rest ih =>
    intro V O V' O' hOV hgray hcl h
    rcases hw1 : ModuleGraph.walk g fuel i (V, O) with _ | s₁
    · rw [ModuleGraph.walkList, hw1] at h
      cases h
    · obtain ⟨V₁, O₁⟩ := s₁
      rw [ModuleGraph.walkList, hw1] at h
      obtain ⟨hOV₁, hcl₁⟩ := hwB i V O V₁ O₁ hOV
        (fun p hp hpo => hgray p hp hpo i (List.mem_cons_self i rest))
        hcl hw1
      obtain ⟨Δ₁, hO₁, hV₁, _, hfr₁, _, _⟩ := walk_delta g fuel _ _ _ _ _ hw1
      refine ih V₁ O₁ V' O' hOV₁ ?_ hcl₁ h
      intro p hp hpo j hj
      have hpΔ : p ∉ Δ₁ := by
        intro hpd
        exact hpo (by rw [hO₁]; exact List.mem_append.mpr (Or.inr hpd))
      have hpV : p ∈ V := by
        rcases (hV₁ p).mp hp with hpd | hpV
        · exact absurd hpd hpΔ
        · exact hpV
      have hpO : p ∉ O := fun hpO =>
        hpo (by rw [hO₁]; exact List.mem_append.mpr (Or.inl hpO))
      exact hgray p hpV hpO j (List.mem_cons_of_mem i hj)

/-- On an acyclic graph, `walk` preserves order-closedness: afterwards
every ordered file has all its transitive imports ordered strictly before
it. -/
theorem walk_closed (g : List (Nat × List Nat)) (hac : ModuleGraph.Acyclic g) :
    ∀ fuel f V O V' O', (∀ x ∈ O, x ∈ V) →
      (∀ p ∈ V, p ∉ O → Relation.TransGen (ModuleGraph.dimp g) p f) →
      ModuleGraph.OrderClosed g O → ModuleGraph.walk g fuel f (V, O) = some (V', O') →
      (∀ x ∈ O', x ∈ V') ∧ ModuleGraph.OrderClosed g O' := by
  intro fuel
  induction fuel with
  | zero =>
    intro f V O V' O' _ _ _ h
    exact Option.noConfusion h
  | succ n ih =>
    intro f V O V' O' hOV hgray hcl h
    rw [walk_succ] at h
    simp only at h
    by_cases hf : f ∈ V
    · rw [if_pos hf] at h
      injection h with h'
      injection h' with h1 h2
      subst h1; subst h2
      exact ⟨hOV, hcl⟩
    · rw [if_neg hf] at h
      rcases hwl : ModuleGraph.walkList (ModuleGraph.walk g n) (ModuleGraph.imports g f) (f :: V, O) with _ | s'
      · rw [hwl] at h
        cases h
      · obtain ⟨V₁, O₁⟩ := s'
        rw [hwl] at h
        simp only at h
        injection h with h'
        injection h' with h1 h2
        subst h1; subst h2
        have hgray₁ : ∀ p ∈ f :: V, p ∉ O →
            ∀ i ∈ ModuleGraph.imports g f, Relation.TransGen (ModuleGraph.dimp g) p i := by
          intro p hp hpo i hi
          rcases List.mem_cons.mp hp with rfl | hp
          · exact Relation.TransGen.single hi
          · exact Relation.TransGen.tail (hgray p hp hpo)  hi
        obtain ⟨hOV₁, hcl₁⟩ := walkList_closed_of g n hac ih
          (ModuleGraph.imports g f) (f :: V) O V₁ O₁
          (fun x hx => List.mem_cons_of_mem f (hOV x hx)) hgray₁ hcl hwl
        obtain ⟨Δ, hO₁, hV₁, _, hfr, _, hlV⟩ :=
          walkList_delta g n (ModuleGraph.imports g f) _ _ _ _ hwl
        -- every direct import of f ends up in the emitted order O₁
        have himp : ∀ i ∈ ModuleGraph.imports g f, i ∈ O₁ := by
          intro i hi
          have hiV₁ : i ∈ V₁ := hlV i hi
          rcases (hV₁ i).mp hiV₁ with hid | hiv
          · rw [hO₁]
            exact List.mem_append.mpr (Or.inr hid)
          · rcases List.mem_cons.mp hiv with rfl | hiV
            · exact absurd (Relation.TransGen.single hi) (hac i)
            · by_cases hiO : i ∈ O
              · rw [hO₁]
                exact List.mem_append.mpr (Or.inl hiO)
              · exact absurd
                  (Relation.TransGen.tail (hgray i hiV hiO) hi)
                  (hac i)
        -- anything transitively reachable from f is already in O₁
        have hreach : ∀ w, Relation.TransGen (ModuleGraph.dimp g) f w → w ∈ O₁ := by
          intro w hw
          obtain ⟨b, hfb, hbw⟩ := Relation.TransGen.head'_iff.mp hw
          rcases Relation.reflTransGen_iff_eq_or_transGen.mp hbw with rfl | hbw
          · exact himp w hfb
          · exact (hcl₁ b (himp b hfb) w hbw).1
        constructor
        · intro x hx
          rcases List.mem_append.mp hx with hx | hx
          · exact hOV₁ x hx
          · rw [List.mem_singleton] at hx
            subst hx
            exact (hV₁ x).mpr (Or.inr (List.mem_cons_self x V))
        · intro u hu w hw
          rcases List.mem_append.mp hu with hu | hu
          · obtain ⟨hwO, hb⟩ := hcl₁ u hu w hw
            exact ⟨List.mem_append.mpr (Or.inl hwO), before_append_left hb⟩
          · rw [List.mem_singleton] at hu
            subst hu
            have hwO₁ := hreach w hw
            exact ⟨List.mem_append.mpr (Or.inl hwO₁), before_mem_snoc hwO₁⟩

/-- A stronger filter keeps at most as many elements. -/
theorem filter_length_mono (p q : Nat → Bool)
    (h : ∀ x, q x = true → p x = true) :
    ∀ l : List Nat, (l.filter q).length ≤ (l.filter p).length := by
  intro l
  induction l with
  | nil => simp
  | cons a l ih =>
    by_cases hq : q a = true
    · rw [List.filter_cons_of_pos hq, List.filter_cons_of_pos (h a hq)]
      simpa using ih
    · rw [List.filter_cons_of_neg (by simpa using hq)]
      by_cases hp : p a = true
      · rw [List.filter_cons_of_pos hp]
        exact le_trans ih (by simp)
      · rw [List.filter_cons_of_neg (by simpa using hp)]
        exact ih

/-- A strictly stronger filter (witnessed at a member) keeps strictly
fewer elements. -/
theorem filter_length_lt (p q : Nat → Bool) (a : Nat)
    (h : ∀ x, q x = true → p x = true)
    (hp : p a = true) (hq : q a = false) :
    ∀ l : List Nat, a ∈ l → (l.filter q).length < (l.filter p).length := by
  intro l
  induction l with
  | nil => intro h; cases h
  | cons x xs ih =>
    intro hmem
    rcases List.mem_cons.mp hmem with rfl | hmem
    · rw [List.filter_cons_of_neg (by simp [hq]),
        List.filter_cons_of_pos hp]
      exact Nat.lt_succ_of_le (filter_length_mono p q h xs)
    · by_cases hqx : q x = true
      · rw [List.filter_cons_of_pos hqx, List.filter_cons_of_pos (h x hqx)]
        simpa using ih hmem
      · rw [List.filter_cons_of_neg (by simpa using hqx)]
        by_cases hpx : p x = true
        · rw [List.filter_cons_of_pos hpx]
          exact lt_trans (ih hmem) (by simp)
        · rw [List.filter_cons_of_neg (by simpa using hpx)]
          exact ih hmem

/-- Growing the visited set does not increase the fuel measure. -/
theorem unvisited_mono (g : List (Nat × List Nat)) {V V' : List Nat}
    (h : ∀ x ∈ V, x ∈ V') :
    ModuleGraph.unvisitedKeys g V' ≤ ModuleGraph.unvisitedKeys g V := by
  refine filter_length_mono _ _ ?_ (g.map Prod.fst)
  intro x hx
  simp only [decide_eq_true_eq] at hx ⊢
  intro hxV
  exact hx (h x hxV)

/-- Visiting an unvisited key strictly decreases the fuel measure. -/
theorem unvisited_strict (g : List (Nat × List Nat)) {f : Nat}
    {V : List Nat} (hk : f ∈ g.map Prod.fst) (hf : f ∉ V) :
    ModuleGraph.unvisitedKeys g (f :: V) < ModuleGraph.unvisitedKeys g V := by
  refine filter_length_lt _ _ f ?_ ?_ ?_ (g.map Prod.fst) hk
  · intro x hx
    simp only [decide_eq_true_eq] at hx ⊢
    intro hxV
    exact hx (List.mem_cons_of_mem f hxV)
  · simpa using hf
  · simp

/-- Lookup misses for a non-key. -/
theorem lookup_eq_none_of_not_key {g : List (Nat × List Nat)} {f : Nat}
    (h : f ∉ g.map Prod.fst) : g.lookup f = none := by
  induction g with
  | nil => rfl
  | cons kv g ih =>
    obtain ⟨k, v⟩ := kv
    simp only [List.map_cons, List.mem_cons] at h
    push_neg at h
    have hbeq : (f == k) = false := beq_eq_false_iff_ne.mpr h.1
    simp [List.lookup, hbeq, ih h.2]

/-- `walkList` succeeds whenever the fuel exceeds the number of unvisited
keys, given that `walk` does at the same fuel. -/
theorem walkList_isSome_of (g : List (Nat × List Nat)) (fuel : Nat)
    (hw : ∀ f V O, ModuleGraph.unvisitedKeys g V < fuel →
      (ModuleGraph.walk g fuel f (V, O)).isSome = true) :
    ∀ l V O, ModuleGraph.unvisitedKeys g V < fuel →
      (ModuleGraph.walkList (ModuleGraph.walk g fuel) l (V, O)).isSome = true := by
  intro l
  induction l with
  | nil => intro V O _; rfl
  | cons i rest ih =>
    intro V O h
    have hsome := hw i V O h
    rcases hw1 : ModuleGraph.walk g fuel i (V, O) with _ | s₁
    · rw [hw1] at hsome
      cases hsome
    · obtain ⟨V₁, O₁⟩ := s₁
      rw [ModuleGraph.walkList, hw1]
      obtain ⟨Δ, _, hV₁, _, _, _, _⟩ := walk_delta g fuel _ _ _ _ _ hw1
      exact ih V₁ O₁ (lt_of_le_of_lt
        (unvisited_mono g (fun x hx => (hV₁ x).mpr (Or.inr hx))) h)

/-- `walk` succeeds whenever the fuel exceeds the number of unvisited
keys: the model is total at the fuel supplied by `resolve_module_graph`. -/
theorem walk_isSome (g : List (Nat × List Nat)) :
    ∀ fuel f V O, ModuleGraph.unvisitedKeys g V < fuel →
      (ModuleGraph.walk g fuel f (V, O)).isSome = true := by
  intro fuel
  induction fuel with
  | zero => intro f V O h; omega
  | succ n ih =>
    intro f V O h
    rw [walk_succ]
    simp only
    by_cases hf : f ∈ V
    · rw [if_pos hf]
      rfl
    · rw [if_neg hf]
      by_cases hk : f ∈ g.map Prod.fst
      · have hlt : ModuleGraph.unvisitedKeys g (f :: V) < n := by
          have := unvisited_strict g hk hf
          omega
        have := walkList_isSome_of g n ih (ModuleGraph.imports g f) (f :: V) O hlt
        rcases hwl : ModuleGraph.walkList (ModuleGraph.walk g n) (ModuleGraph.imports g f) (f :: V, O)
            with _ | s'
        · rw [hwl] at this
          cases this
        · rfl
      · have himp : ModuleGraph.imports g f = [] := by
          unfold ModuleGraph.imports
          rw [lookup_eq_none_of_not_key hk]
          rfl
        rw [himp]
        rfl

/-- With nothing visited the fuel measure is the graph size. -/
theorem unvisited_nil (g : List (Nat × List Nat)) :
    ModuleGraph.unvisitedKeys g [] = g.length := by
  unfold ModuleGraph.unvisitedKeys
  rw [List.filter_eq_self.mpr (by intro a _; simp)]
  simp

/-- C8: `resolve_module_graph` succeeds and returns a duplicate-free order
containing the entry, with every ordered file also visited; a file already
in the visited set is not revisited (the walk returns the state unchanged,
so the second occurrence is omitted and the first position is kept); and
when the import graph is acyclic, every transitive import of an ordered
file is itself ordered strictly before it. -/
theorem module_graph_resolution_spec (g : List (Nat × List Nat))
    (entry : Nat) :
    ∃ s, ModuleGraph.resolve_module_graph g entry = some s ∧
      s.2.Nodup ∧ entry ∈ s.2 ∧ (∀ x ∈ s.2, x ∈ s.1) ∧
      (∀ fuel V O, entry ∈ V →
        ModuleGraph.walk g (fuel + 1) entry (V, O) = some (V, O)) ∧
      (ModuleGraph.Acyclic g → ∀ u ∈ s.2, ∀ w, Relation.TransGen (ModuleGraph.dimp g) u w →
        w ∈ s.2 ∧ ModuleGraph.Before s.2 w u) := by
  have hs : (ModuleGraph.walk g (g.length + 1) entry ([], [])).isSome = true := by
    refine walk_isSome g (g.length + 1) entry [] [] ?_
    rw [unvisited_nil]
    omega
  rcases hval : ModuleGraph.walk g (g.length + 1) entry ([], []) with _ | s
  · rw [hval] at hs
    cases hs
  · obtain ⟨V, O⟩ := s
    obtain ⟨Δ, hO, hV, hnd, _, _, hfV⟩ :=
      walk_delta g (g.length + 1) entry [] [] V O hval
    have hOΔ : O = Δ := by simpa using hO
    refine ⟨(V, O), hval, ?_, ?_, ?_, ?_, ?_⟩
    · rw [hOΔ]
      exact hnd
    · rcases (hV entry).mp hfV with h | h
      · rw [hOΔ]
        exact h
      · cases h
    · intro x hx
      refine (hV x).mpr (Or.inl ?_)
      rw [hOΔ] at hx
      exact hx
    · intro fuel V' O' hmem
      rw [walk_succ]
      simp only
      rw [if_pos hmem]
    · intro hac
      have := walk_closed g hac (g.length + 1) entry [] [] V O
        (by intro x hx; cases hx)
        (by intro p hp; cases hp)
        (by intro u hu; cases hu) hval
      exact this.2

/-- Direct imports in the example graph increase the file id. -/
theorem mgEx_step : ∀ a b, ModuleGraph.dimp ModuleGraph.mgEx a b → a < b := by
  intro a b hab
  unfold ModuleGraph.dimp ModuleGraph.imports ModuleGraph.mgEx at hab
  by_cases h0 : a = 0
  · subst h0
    simp [List.lookup] at hab
    rcases hab with rfl | rfl <;> omega
  · by_cases h1 : a = 1
    · subst h1
      simp [List.lookup] at hab
      omega
    · by_cases h2 : a = 2
      · subst h2
        simp [List.lookup] at hab
      · have e0 : (a == 0) = false := beq_eq_false_iff_ne.mpr h0
        have e1 : (a == 1) = false := beq_eq_false_iff_ne.mpr h1
        have e2 : (a == 2) = false := beq_eq_false_iff_ne.mpr h2
        simp [List.lookup, e0, e1, e2] at hab

/-- The example graph is acyclic. -/
theorem mgEx_acyclic : ModuleGraph.Acyclic ModuleGraph.mgEx := by
  intro x hx
  have hmono : ∀ a b, Relation.TransGen (ModuleGraph.dimp ModuleGraph.mgEx) a b → a < b := by
    intro a b h
    induction h with
    | single h => exact mgEx_step _ _ h
    | tail _ h ih => exact lt_trans ih (mgEx_step _ _ h)
  exact absurd (hmono x x hx) (lt_irrefl x)

theorem module_graph_resolution_spec_witness :
    ∃ s, ModuleGraph.resolve_module_graph ModuleGraph.mgEx 0 = some s ∧ s.2.Nodup ∧
      0 ∈ s.2 ∧ 2 ∈ s.2 ∧ ModuleGraph.Before s.2 2 0 := by
  obtain ⟨s, hs, hnd, hmem, _, _, hord⟩ :=
    module_graph_resolution_spec ModuleGraph.mgEx 0
  have hval : ModuleGraph.resolve_module_graph ModuleGraph.mgEx 0 = some ([2, 1, 0], [2, 1, 0]) := by
    decide
  rw [hval] at hs
  injection hs with hs'
  subst hs'
  refine ⟨([2, 1, 0], [2, 1, 0]), hval, hnd, hmem, by decide, ?_⟩
  have h02 : Relation.TransGen (ModuleGraph.dimp ModuleGraph.mgEx) 0 2 :=
    Relation.TransGen.single (by unfold ModuleGraph.dimp; decide)
  exact (hord mgEx_acyclic 0 hmem 2 h02).2

end Llts
